import Mathlib

/-!
# Verification of the TON vanity-address generator host code

Shallow embedding of `src/generator.py` (the host-side search orchestrator of
the `ton-org/vanity` repository) and proofs about its pattern compiler, cell
serialiser, validator and CLI front end.

Modelling conventions:
* Python byte strings and byte arrays are `List Nat` (each element a byte value).
* Python text strings are `List Nat` of Unicode code points; `pyStr` converts a
  Lean string literal to this form.  ASCII case predicates (`isalpha`,
  `isalnum`, `lower`, `upper`) are modelled for the ASCII range, which is the
  only range exercised once inputs pass the generator's base64url validation.
* Python bits (ints 0/1 inside lists) are `Nat`.
* A Python function that raises on bad input is modelled totally; every theorem
  carries the hypotheses under which the source cannot raise, and the raising
  branch yields an out-of-range sentinel that those hypotheses exclude.
-/

/-- Code points of a Lean string, modelling a Python `str`. -/
def pyStr (s : String) : List Nat := s.data.map Char.toNat

/-- `generator.py::int_to_bits`: n high-to-low bits of integer x. -/
def int_to_bits (x n : Nat) : List Nat :=
  (List.range n).map (fun i => (x >>> (n - 1 - i)) &&& 1)

/-- `generator.py::bits_from_byte`: 8 high-to-low bits of a byte. -/
def bits_from_byte (b : Nat) : List Nat :=
  [(b >>> 7) &&& 1, (b >>> 6) &&& 1, (b >>> 5) &&& 1, (b >>> 4) &&& 1,
   (b >>> 3) &&& 1, (b >>> 2) &&& 1, (b >>> 1) &&& 1, (b >>> 0) &&& 1]

/-- `generator.py::base64url_value`.  The source raises `ValueError` on a
character outside the base64url alphabet; that branch is modelled by the
out-of-range sentinel `64`. -/
def base64url_value (c : Nat) : Nat :=
  if 65 ≤ c ∧ c ≤ 90 then c - 65
  else if 97 ≤ c ∧ c ≤ 122 then c - 97 + 26
  else if 48 ≤ c ∧ c ≤ 57 then c - 48 + 52
  else if c = 45 then 62
  else if c = 95 then 63
  else 64

/-- `generator.py::base64url_bits`: 6 high-to-low bits of one base64url char. -/
def base64url_bits (c : Nat) : List Nat :=
  (List.range 6).map (fun j => (base64url_value c >>> (5 - j)) &&& 1)

/-- Python `str.isalpha` restricted to ASCII (the only case reachable after
base64url validation). -/
def py_isalpha (c : Nat) : Bool :=
  (65 ≤ c && c ≤ 90) || (97 ≤ c && c ≤ 122)

/-- Python `str.isdigit` restricted to ASCII. -/
def py_isdigit (c : Nat) : Bool := 48 ≤ c && c ≤ 57

/-- Python `str.isalnum` restricted to ASCII. -/
def py_isalnum (c : Nat) : Bool := py_isalpha c || py_isdigit c

/-- Python `str.lower` on one ASCII code point. -/
def py_lower (c : Nat) : Nat := if 65 ≤ c ∧ c ≤ 90 then c + 32 else c

/-- Python `str.upper` on one ASCII code point. -/
def py_upper (c : Nat) : Nat := if 97 ≤ c ∧ c ≤ 122 then c - 32 else c

/-- `generator.py::char_variants`: allowed character variants for
case-insensitive matching.  The source builds `list({lower, upper})`, a
two-element set when the character is alphabetic (ASCII upper and lower case
always differ); the model fixes the order lower-then-upper, which no property
below depends on. -/
def char_variants (c : Nat) (case_sensitive : Bool) : List Nat :=
  if case_sensitive then [c]
  else if py_isalpha c then [py_lower c, py_upper c]
  else [c]

/-- `generator.py::char_bit_variants`. -/
def char_bit_variants (c : Nat) (case_sensitive : Bool) : List (List Nat) :=
  (char_variants c case_sensitive).map base64url_bits

/-- `generator.py::is_base64url`. -/
def is_base64url (s : List Nat) : Bool :=
  s.all (fun c => py_isalnum c || c = 45 || c = 95)

/-- Membership in the strict base64url alphabet (what `base64url_value`
accepts without raising). -/
def is_b64_char (c : Nat) : Bool :=
  (65 ≤ c && c ≤ 90) || (97 ≤ c && c ≤ 122) || (48 ≤ c && c ≤ 57) ||
    c = 45 || c = 95

/-- Accumulate bits high-to-low into a value, mirroring the
`val = (val << 1) | bit` loops of the source. -/
def byteOfBits (l : List Nat) : Nat :=
  l.foldl (fun v bit => (v <<< 1) ||| bit) 0

/-- Pack a bit list into bytes 8 at a time; a trailing group of fewer than 8
bits is packed as-is, exactly like the `range(0, len(bits), 8)` loops of the
source. -/
def packBits : List Nat → List Nat
  | [] => []
  | b0 :: b1 :: b2 :: b3 :: b4 :: b5 :: b6 :: b7 :: rest =>
      byteOfBits [b0, b1, b2, b3, b4, b5, b6, b7] :: packBits rest
  | l => [byteOfBits l]

/-- Pack a bit list into bytes keeping only complete 8-bit groups (the
behaviour of `base64.b64decode`, which discards a partial trailing group). -/
def packBitsFull : List Nat → List Nat
  | b0 :: b1 :: b2 :: b3 :: b4 :: b5 :: b6 :: b7 :: rest =>
      byteOfBits [b0, b1, b2, b3, b4, b5, b6, b7] :: packBitsFull rest
  | _ => []

/-- Group a bit list into base64 digit values 6 bits at a time, discarding a
partial trailing group (never present on the 288-bit inputs used here). -/
def sixChunks : List Nat → List Nat
  | b0 :: b1 :: b2 :: b3 :: b4 :: b5 :: rest =>
      byteOfBits [b0, b1, b2, b3, b4, b5] :: sixChunks rest
  | _ => []

/-- Byte list to high-to-low bit stream. -/
def bytesToBits (l : List Nat) : List Nat := l.flatMap bits_from_byte

/-- The base64url digit character for a 6-bit value (the encoding alphabet of
`base64.urlsafe_b64encode`). -/
def b64CharCode (v : Nat) : Nat :=
  if v < 26 then 65 + v
  else if v < 52 then 97 + v - 26
  else if v < 62 then 48 + v - 52
  else if v = 62 then 45
  else 95

/-- Model of `base64.urlsafe_b64encode` for inputs whose length is a multiple
of 3 (no `=` padding), as a list of code points. -/
def b64encode (bytes : List Nat) : List Nat :=
  (sixChunks (bytesToBits bytes)).map b64CharCode

/-- Model of `base64.urlsafe_b64decode` on a string over the base64url
alphabet whose length is a multiple of 4. -/
def b64decode (s : List Nat) : List Nat :=
  packBitsFull (s.flatMap base64url_bits)

/-- Model of `base64.urlsafe_b64decode(s + "==")` as used by `parse_cli`:
CPython's lenient decoder accepts any alphabet-only string unless its length
is 1 more than a multiple of 4, and keeps only complete output bytes. -/
def urlsafe_b64decode_pad (s : List Nat) : Option (List Nat) :=
  if s.length % 4 = 1 then none else some (packBitsFull (s.flatMap base64url_bits))

/-- `generator.py::crc16_table` inner 8-fold step. -/
def crc16_step (crc : Nat) : Nat :=
  if crc &&& 32768 ≠ 0 then ((crc <<< 1) ^^^ 4129) &&& 65535
  else (crc <<< 1) &&& 65535

/-- `generator.py::crc16_table` (poly 0x1021). -/
def crc16_table : List Nat :=
  (List.range 256).map (fun i =>
    (List.range 8).foldl (fun crc _ => crc16_step crc) (i <<< 8))

/-- `generator.py::crc16`. -/
def crc16 (data : List Nat) (table : List Nat) : Nat :=
  data.foldl (fun crc b =>
    ((crc <<< 8) ^^^ table.getD (((crc >>> 8) ^^^ b) &&& 255) 0) &&& 65535) 0

/-- `generator.py::bits_to_padded_bytes`: TON padding (append 1 then zeros to
a byte boundary) followed by packing. -/
def bits_to_padded_bytes (bits : List Nat) : List Nat :=
  let byte_len := (bits.length + 7) / 8
  if byte_len = 0 then []
  else
    let padding := byte_len * 8 - bits.length
    let padded := if padding = 0 then bits else bits ++ 1 :: List.replicate (padding - 1) 0
    packBits padded

/-- SHA-256 round constants (`generator.py::K_SHA256`). -/
def K_SHA256 : List Nat :=
  [0x428A2F98, 0x71374491, 0xB5C0FBCF, 0xE9B5DBA5, 0x3956C25B, 0x59F111F1,
   0x923F82A4, 0xAB1C5ED5, 0xD807AA98, 0x12835B01, 0x243185BE, 0x550C7DC3,
   0x72BE5D74, 0x80DEB1FE, 0x9BDC06A7, 0xC19BF174, 0xE49B69C1, 0xEFBE4786,
   0x0FC19DC6, 0x240CA1CC, 0x2DE92C6F, 0x4A7484AA, 0x5CB0A9DC, 0x76F988DA,
   0x983E5152, 0xA831C66D, 0xB00327C8, 0xBF597FC7, 0xC6E00BF3, 0xD5A79147,
   0x06CA6351, 0x14292967, 0x27B70A85, 0x2E1B2138, 0x4D2C6DFC, 0x53380D13,
   0x650A7354, 0x766A0ABB, 0x81C2C92E, 0x92722C85, 0xA2BFE8A1, 0xA81A664B,
   0xC24B8B70, 0xC76C51A3, 0xD192E819, 0xD6990624, 0xF40E3585, 0x106AA070,
   0x19A4C116, 0x1E376C08, 0x2748774C, 0x34B0BCB5, 0x391C0CB3, 0x4ED8AA4A,
   0x5B9CCA4F, 0x682E6FF3, 0x748F82EE, 0x78A5636F, 0x84C87814, 0x8CC70208,
   0x90BEFFFA, 0xA4506CEB, 0xBEF9A3F7, 0xC67178F2]

/-- `generator.py::_rotr` (32-bit rotate right). -/
def sha_rotr (x n : Nat) : Nat :=
  ((x >>> n) ||| ((x &&& 0xFFFFFFFF) <<< (32 - n))) &&& 0xFFFFFFFF

/-- `generator.py::_shr`. -/
def sha_shr (x n : Nat) : Nat := (x &&& 0xFFFFFFFF) >>> n

/-- `generator.py::_sigma0`. -/
def sha_sigma0 (x : Nat) : Nat := sha_rotr x 7 ^^^ sha_rotr x 18 ^^^ sha_shr x 3

/-- `generator.py::_sigma1`. -/
def sha_sigma1 (x : Nat) : Nat := sha_rotr x 17 ^^^ sha_rotr x 19 ^^^ sha_shr x 10

/-- `generator.py::_Sigma0`. -/
def sha_bigSigma0 (x : Nat) : Nat := sha_rotr x 2 ^^^ sha_rotr x 13 ^^^ sha_rotr x 22

/-- `generator.py::_Sigma1`. -/
def sha_bigSigma1 (x : Nat) : Nat := sha_rotr x 6 ^^^ sha_rotr x 11 ^^^ sha_rotr x 25

/-- The standard SHA-256 initial state. -/
def sha256_iv : List Nat :=
  [0x6A09E667, 0xBB67AE85, 0x3C6EF372, 0xA54FF53A,
   0x510E527F, 0x9B05688C, 0x1F83D9AB, 0x5BE0CD19]

/-- The 64-word message schedule of one SHA-256 block. -/
def sha256_schedule (block : List Nat) : List Nat :=
  let w16 := (List.range 16).map (fun i =>
    (block.getD (i * 4) 0 <<< 24) ||| (block.getD (i * 4 + 1) 0 <<< 16) |||
    (block.getD (i * 4 + 2) 0 <<< 8) ||| block.getD (i * 4 + 3) 0)
  (List.range 48).foldl (fun ws j =>
    ws ++ [(sha_sigma1 (ws.getD (j + 14) 0) + ws.getD (j + 9) 0 +
            sha_sigma0 (ws.getD (j + 1) 0) + ws.getD j 0) &&& 0xFFFFFFFF]) w16

/-- `generator.py::sha256_compress_block`: one SHA-256 compression over a
64-byte block; `state = none` means the standard IV (the source's default
argument). -/
def sha256_compress_block (block : List Nat) (state : Option (List Nat)) : List Nat :=
  let s := match state with
    | none => sha256_iv
    | some st => st
  let w := sha256_schedule block
  let fin := (List.range 64).foldl (fun t i =>
    let a := t.getD 0 0
    let b := t.getD 1 0
    let c := t.getD 2 0
    let d := t.getD 3 0
    let e := t.getD 4 0
    let f := t.getD 5 0
    let g := t.getD 6 0
    let h := t.getD 7 0
    let t1 := (h + sha_bigSigma1 e + ((e &&& f) ^^^ ((e ^^^ 0xFFFFFFFF) &&& g)) +
               K_SHA256.getD i 0 + w.getD i 0) &&& 0xFFFFFFFF
    let t2 := (sha_bigSigma0 a + ((a &&& b) ^^^ (a &&& c) ^^^ (b &&& c))) &&& 0xFFFFFFFF
    [(t1 + t2) &&& 0xFFFFFFFF, a, b, c, (d + t1) &&& 0xFFFFFFFF, e, f, g])
    [s.getD 0 0, s.getD 1 0, s.getD 2 0, s.getD 3 0,
     s.getD 4 0, s.getD 5 0, s.getD 6 0, s.getD 7 0]
  [(s.getD 0 0 + fin.getD 0 0) &&& 0xFFFFFFFF, (s.getD 1 0 + fin.getD 1 0) &&& 0xFFFFFFFF,
   (s.getD 2 0 + fin.getD 2 0) &&& 0xFFFFFFFF, (s.getD 3 0 + fin.getD 3 0) &&& 0xFFFFFFFF,
   (s.getD 4 0 + fin.getD 4 0) &&& 0xFFFFFFFF, (s.getD 5 0 + fin.getD 5 0) &&& 0xFFFFFFFF,
   (s.getD 6 0 + fin.getD 6 0) &&& 0xFFFFFFFF, (s.getD 7 0 + fin.getD 7 0) &&& 0xFFFFFFFF]

/-- SHA-256 message padding (for the model of `hashlib.sha256`). -/
def sha256_pad (msg : List Nat) : List Nat :=
  let L := msg.length
  let k := (56 + 64 - ((L + 1) % 64)) % 64
  msg ++ 0x80 :: List.replicate k 0 ++
    (List.range 8).map (fun i => ((8 * L) >>> (8 * (7 - i))) &&& 255)

/-- Fold SHA-256 compressions over consecutive 64-byte blocks. -/
def sha256_fold (st : List Nat) : List Nat → List Nat
  | [] => st
  | b :: rest =>
      sha256_fold (sha256_compress_block ((b :: rest).take 64) (some st))
        ((b :: rest).drop 64)
  termination_by l => l.length
  decreasing_by simp [List.length_drop]; omega

/-- Model of `hashlib.sha256(msg).digest()`. -/
def sha256 (msg : List Nat) : List Nat :=
  (sha256_fold sha256_iv (sha256_pad msg)).flatMap (fun w =>
    [(w >>> 24) &&& 255, (w >>> 16) &&& 255, (w >>> 8) &&& 255, w &&& 255])

/-- Contract constant `CONST1` (50 bits). -/
def CONST1 : Nat := 1065632427291681

/-- Contract constant `CONST2` (179 bits). -/
def CONST2 : Nat := 457587318777827214152676959512820176586892797206855680

/-- `generator.py::owner_bits`: bits of the owner `MsgAddressInt`
(tag 2, anycast 1, workchain 8, account hash 256). -/
def owner_bits (owner_raw : List Nat) : List Nat :=
  let workchain := owner_raw.getD 1 0
  let addr_hash := (owner_raw.drop 2).take 32
  let wc_byte := workchain % 256
  [1, 0, 0] ++ bits_from_byte wc_byte ++ addr_hash.flatMap bits_from_byte

/-- The 624-bit payload of the vanity code cell (`generator.py::build_code_repr`
before packing). -/
def code_bits (owner_raw salt_16 : List Nat) : List Nat :=
  int_to_bits CONST1 50 ++ owner_bits owner_raw ++ int_to_bits CONST2 179 ++
    salt_16.flatMap bits_from_byte

/-- `generator.py::build_code_repr`: code cell representation
(descriptors then packed data). -/
def build_code_repr (owner_raw salt_16 : List Nat) : List Nat :=
  let bits := code_bits owner_raw salt_16
  let b := bits.length
  let d1 := 0
  let d2 := b / 8 + (b + 7) / 8
  d1 :: d2 :: packBits bits

/-- `generator.py::build_stateinit_prefix`: prefix bytes (descriptors, padded
descriptor bits, ref depth) of a StateInit cell.  The source raises
`ValueError` for `fixed_prefix_length ≥ 32`; all call sites stay below 9. -/
def build_stateinit_prefix_bytes
    (fixed_prefix_length : Option Nat) (special : Option (Nat × Nat)) : List Nat :=
  let bits1 : List Nat := match fixed_prefix_length with
    | some n => 1 :: int_to_bits n 5
    | none => [0]
  let bits2 : List Nat := match special with
    | some (tick, tock) => [1, if tick ≠ 0 then 1 else 0, if tock ≠ 0 then 1 else 0]
    | none => [0]
  let bits := bits1 ++ bits2 ++ [1, 0, 0]
  let padded_bits := bits_to_padded_bytes bits
  let bits_desc := (bits.length + 7) / 8 + bits.length / 8
  1 :: bits_desc :: (padded_bits ++ [0, 0])

/-- `generator.py::pack_prefix_words`. -/
def pack_prefix_words (p : List Nat) : List Nat :=
  (List.range p.length).foldl (fun ws i =>
    ws.set (i >>> 2) ((ws.getD (i >>> 2) 0) ||| ((p.getD i 0) <<< (24 - (i &&& 3) * 8))))
    (List.replicate 16 0)

/-- Minimal big-endian byte encoding length of a natural (`int.bit_length`
based computation in `to_boc_single_cell`). -/
def min_bytes_len (n : Nat) : Nat := max 1 ((Nat.size n + 7) / 8)

/-- Big-endian fixed-width byte encoding (`int.to_bytes(k, "big")`). -/
def to_bytes_be (n k : Nat) : List Nat :=
  (List.range k).map (fun i => (n >>> (8 * (k - 1 - i))) &&& 255)

/-- `generator.py::to_boc_single_cell`: minimal single-root no-refs BoC. -/
def to_boc_single_cell (cell_bytes : List Nat) : List Nat :=
  let size_bytes := min (min_bytes_len 1) 4
  let tot_cells_size := cell_bytes.length
  let off_bytes := min (min_bytes_len tot_cells_size) 8
  let flags_byte := size_bytes &&& 7
  [0xb5, 0xee, 0x9c, 0x72, flags_byte, off_bytes] ++
    to_bytes_be 1 size_bytes ++ to_bytes_be 1 size_bytes ++ to_bytes_be 0 size_bytes ++
    to_bytes_be tot_cells_size off_bytes ++ to_bytes_be 0 size_bytes ++ cell_bytes

/-- `generator.py::CliConfig`.  `owner` is the raw base64url string (code
points); `start`/`end` are `Optional[str]` in the source and are modelled as
code-point lists where `[]` covers both `None` and the empty string (the
source only ever tests their truthiness and reads their characters). -/
structure CliConfig where
  owner : List Nat
  start : List Nat
  end_ : List Nat
  masterchain : Bool
  non_bounceable : Bool
  testnet : Bool
  case_sensitive : Bool
  only_one : Bool
deriving Repr, DecidableEq

/-- `generator.py::KernelConfig`. -/
structure KernelConfig where
  flags_hi : Nat
  flags_lo : Nat
  free_hash_mask : Nat
  free_hash_val : Nat
  prefix_mask : List Nat
  prefix_val : List Nat
  has_crc : Nat
  prefix_pos : List Nat
  prefix_pos_nocrc : List Nat
  stateinit_variants : List (List Nat)
  stateinit_prefix_lens : List Nat
  stateinit_prefix_max_len : Nat
  stateinit_prefix_padded : List (List Nat)
  prefix_w_matrix : List (List Nat)
  code_prefix_bytes : List Nat
  code_state_base : List Nat
  crc16_tab : List Nat
  fixed_prefix_lengths : List (Option Nat)
  special_variants : List (Option (Nat × Nat))
  ci_bitpos : List Nat
  ci_alt0 : List Nat
  ci_alt1 : List Nat
deriving Repr, DecidableEq

/-- `generator.py::set_mask_bit`. -/
def set_mask_bit (mask_arr val_arr : List Nat) (bit_index bit_value : Nat) :
    List Nat × List Nat :=
  let byte := bit_index / 8
  let offset := 7 - bit_index % 8
  (mask_arr.set byte (mask_arr.getD byte 0 ||| (1 <<< offset)),
   if bit_value ≠ 0 then val_arr.set byte (val_arr.getD byte 0 ||| (1 <<< offset))
   else val_arr)

/-- One character's filter in `choose_start_alignment`: keep the variants that
agree with the fixed flag/workchain bits on every overlapping position. -/
def filter_variants (variants : List (List Nat)) (prefix_bits : List Nat)
    (char_bit_base : Nat) : List (List Nat) :=
  variants.filter (fun var =>
    (List.range 6).all (fun b =>
      if char_bit_base + b < 16 then
        decide (var.getD b 0 = prefix_bits.getD (char_bit_base + b) 0)
      else true))

/-- The per-character loop of `choose_start_alignment` at one digit offset:
`some filtered` when every character keeps at least one variant, `none` when
some character loses all of them (`ok = False` in the source). -/
def filterChars (char_opts : List (List (List Nat))) (prefix_bits : List Nat)
    (bit_offset : Nat) : Option (List (List (List Nat))) :=
  match char_opts with
  | [] => some []
  | v :: rest =>
    let valid := filter_variants v prefix_bits bit_offset
    if valid = [] then none
    else (filterChars rest prefix_bits (bit_offset + 6)).map (fun f => valid :: f)

/-- The offset search loop of `choose_start_alignment`: try `n` successive
digit offsets starting at `d`; fall back to `((16 + 5) / 6, char_opts)`. -/
def alignFrom (char_opts : List (List (List Nat))) (prefix_bits : List Nat) :
    Nat → Nat → Nat × List (List (List Nat))
  | _, 0 => ((16 + 5) / 6, char_opts)
  | d, n + 1 =>
    match filterChars char_opts prefix_bits (6 * d) with
    | some filtered => (d, filtered)
    | none => alignFrom char_opts prefix_bits (d + 1) n

/-- `generator.py::choose_start_alignment`.  The Python loop runs over
`range(max_digit_offset + 1)` where `max_digit_offset = (288 - 6·len) // 6`
with floor division on possibly negative ints; the iteration count is
therefore 0 whenever the pattern is longer than 48 digits. -/
def choose_start_alignment (start : List Nat) (case_sensitive : Bool)
    (prefix_bits : List Nat) : Nat × List (List (List Nat)) :=
  if start = [] then (0, [])
  else
    let char_opts := start.map (fun c => char_bit_variants c case_sensitive)
    let len_bits := 6 * start.length
    let iters := if 288 < len_bits then 0 else (288 - len_bits) / 6 + 1
    alignFrom char_opts prefix_bits 0 iters

/-- The mutable state threaded through the two mask-building loops of
`build_kernel_config`. -/
structure MaskSt where
  prefix_mask : List Nat
  prefix_val : List Nat
  free_mask : Nat
  free_val : Nat
  ci_bitpos : List Nat
  ci_alt0 : List Nat
  ci_alt1 : List Nat
deriving Repr, DecidableEq

/-- The all-zero initial mask state. -/
def maskSt0 : MaskSt :=
  ⟨List.replicate 36 0, List.replicate 36 0, 0, 0, [], [], []⟩

/-- `sum(bit << (5 - k) for k, bit in enumerate(v))` from the ambiguity
recording blocks. -/
def sixVal (v : List Nat) : Nat :=
  (List.range 6).foldl (fun a k => a + (v.getD k 0 <<< (5 - k))) 0

/-- Record a case-insensitive ambiguity entry when the character's variants
yield two distinct 6-bit values (shared by the start and end loops). -/
def ciRecord (case_sensitive : Bool) (variants : List (List Nat))
    (bit_in_char bit_index : Nat) (st : MaskSt) : MaskSt :=
  if case_sensitive = false ∧ bit_in_char = 0 then
    let variant_vals := (variants.map sixVal).dedup
    if variant_vals.length = 2 then
      { st with ci_bitpos := st.ci_bitpos ++ [bit_index],
                ci_alt0 := st.ci_alt0 ++ [variant_vals.getD 0 0],
                ci_alt1 := st.ci_alt1 ++ [variant_vals.getD 1 0] }
    else st
  else st

/-- One iteration of the start-pattern loop of `build_kernel_config`
(`for i in range(start_len_bits)`). -/
def startStep (case_sensitive : Bool) (scv : List (List (List Nat)))
    (bit_offset : Nat) (st : MaskSt) (i : Nat) : MaskSt :=
  let bit_in_char := i % 6
  let variants := scv.getD (i / 6) []
  let allowed_bits := (variants.map (fun v => v.getD bit_in_char 0)).dedup
  let bit_index := bit_offset + i
  let st := ciRecord case_sensitive variants bit_in_char bit_index st
  if bit_index < 16 then st
  else if allowed_bits.length ≠ 1 then st
  else
    let bit := allowed_bits.getD 0 0
    if bit_index < 16 + 8 then
      let offset := 7 - bit_index % 8
      { st with free_mask := st.free_mask ||| (1 <<< offset),
                free_val := if bit ≠ 0 then st.free_val ||| (1 <<< offset)
                            else st.free_val }
    else if bit_index < 288 ∧ bit_index < 272 then
      let mv := set_mask_bit st.prefix_mask st.prefix_val bit_index bit
      { st with prefix_mask := mv.1, prefix_val := mv.2 }
    else st

/-- One iteration of the end-pattern loop of `build_kernel_config`
(`for i in range(end_len_bits)`). -/
def endStep (case_sensitive : Bool) (ecv : List (List (List Nat)))
    (bit_base : Nat) (st : MaskSt) (i : Nat) : MaskSt :=
  let bit_in_char := i % 6
  let variants := ecv.getD (i / 6) []
  let allowed_bits := (variants.map (fun v => v.getD bit_in_char 0)).dedup
  let bit_index := bit_base + i
  let st := ciRecord case_sensitive variants bit_in_char bit_index st
  if bit_index < 16 then st
  else if allowed_bits.length ≠ 1 then st
  else
    let mv := set_mask_bit st.prefix_mask st.prefix_val bit_index (allowed_bits.getD 0 0)
    { st with prefix_mask := mv.1, prefix_val := mv.2 }

/-- The flags/workchain bytes chosen at the top of `build_kernel_config`. -/
def flags_byte_of (cli : CliConfig) : Nat :=
  (if cli.non_bounceable then 0x51 else 0x11) + (if cli.testnet then 0x80 else 0)

/-- Workchain byte: `0xFF` for masterchain, `0x00` otherwise. -/
def wc_byte_of (cli : CliConfig) : Nat := if cli.masterchain then 0xFF else 0x00

/-- The 16 fixed flag/workchain bits (`AddressParams.prefix_bits`). -/
def prefix_bits_of (cli : CliConfig) : List Nat :=
  bits_from_byte (flags_byte_of cli) ++ bits_from_byte (wc_byte_of cli)

/-- The mask-building part of `build_kernel_config`: run the start loop then
the end loop, and return the final state together with `start_digit_base`. -/
def build_masks (cli : CliConfig) : MaskSt × Nat :=
  let pb := prefix_bits_of cli
  let st0 := maskSt0
  let al :=
    if cli.start ≠ [] then choose_start_alignment cli.start cli.case_sensitive pb
    else (0, [])
  let start_digit_base := al.1
  let scv := al.2
  let st1 :=
    if cli.start ≠ [] then
      (List.range (6 * cli.start.length)).foldl
        (startStep cli.case_sensitive scv (start_digit_base * 6)) st0
    else st0
  let st2 :=
    if cli.end_ ≠ [] then
      let ecv := cli.end_.map (fun c => char_bit_variants c cli.case_sensitive)
      (List.range (6 * cli.end_.length)).foldl
        (endStep cli.case_sensitive ecv (288 - 6 * cli.end_.length)) st1
    else st1
  (st2, start_digit_base)

/-- The five tick/tock choices enumerated by `build_kernel_config`. -/
def special_variants_list : List (Option (Nat × Nat)) :=
  [none, some (0, 0), some (0, 1), some (1, 0), some (1, 1)]

/-- `[8] if cli.start else [None] + list(range(9))`. -/
def fixed_prefix_lengths_of (cli : CliConfig) : List (Option Nat) :=
  if cli.start ≠ [] then [some 8]
  else none :: (List.range 9).map some

/-- `generator.py::build_kernel_config`: compute masks, free-byte rewrite and
stateinit constants; returns the config and `start_digit_base`. -/
def build_kernel_config (cli : CliConfig) (owner_raw : List Nat) :
    KernelConfig × Nat :=
  let flags_byte := flags_byte_of cli
  let wc_byte := wc_byte_of cli
  let bm := build_masks cli
  let st := bm.1
  let start_digit_base := bm.2
  let has_crc := if st.prefix_mask.getD 34 0 ≠ 0 ∨ st.prefix_mask.getD 35 0 ≠ 0
    then 1 else 0
  let prefix_pos := (List.range 36).filter (fun i => st.prefix_mask.getD i 0 ≠ 0)
  let prefix_pos_nocrc := prefix_pos.filter (fun i => i < 34)
  let fixed_prefix_lengths := fixed_prefix_lengths_of cli
  let stateinit_variants := fixed_prefix_lengths.flatMap (fun fpl =>
    special_variants_list.map (fun spec => build_stateinit_prefix_bytes fpl spec))
  let stateinit_prefix_lens := stateinit_variants.map List.length
  let stateinit_prefix_max_len := stateinit_prefix_lens.foldl max 0
  let stateinit_prefix_padded := stateinit_variants.map (fun p =>
    p ++ List.replicate (stateinit_prefix_max_len - p.length) 0)
  let prefix_w_matrix := stateinit_variants.map pack_prefix_words
  let code_repr_zero := build_code_repr owner_raw (List.replicate 16 0)
  let code_prefix_bytes := code_repr_zero.take 64
  let code_state_base := sha256_compress_block code_prefix_bytes none
  ({ flags_hi := flags_byte, flags_lo := wc_byte,
     free_hash_mask := st.free_mask, free_hash_val := st.free_val,
     prefix_mask := st.prefix_mask, prefix_val := st.prefix_val,
     has_crc := has_crc, prefix_pos := prefix_pos,
     prefix_pos_nocrc := prefix_pos_nocrc,
     stateinit_variants := stateinit_variants,
     stateinit_prefix_lens := stateinit_prefix_lens,
     stateinit_prefix_max_len := stateinit_prefix_max_len,
     stateinit_prefix_padded := stateinit_prefix_padded,
     prefix_w_matrix := prefix_w_matrix,
     code_prefix_bytes := code_prefix_bytes,
     code_state_base := code_state_base,
     crc16_tab := crc16_table,
     fixed_prefix_lengths := fixed_prefix_lengths,
     special_variants := special_variants_list,
     ci_bitpos := st.ci_bitpos, ci_alt0 := st.ci_alt0, ci_alt1 := st.ci_alt1 },
   start_digit_base)

/-- XOR `iter_idx`/`idx` into the first two 32-bit little-endian words of the
16-byte base salt (the numpy view manipulation at the top of `process_hit`). -/
def xor_salt (base_salt : List Nat) (iter_idx idx : Nat) : List Nat :=
  let word := fun k =>
    base_salt.getD (4 * k) 0 ||| (base_salt.getD (4 * k + 1) 0 <<< 8) |||
    (base_salt.getD (4 * k + 2) 0 <<< 16) ||| (base_salt.getD (4 * k + 3) 0 <<< 24)
  let w0 := word 0 ^^^ (iter_idx % 4294967296)
  let w1 := word 1 ^^^ (idx % 4294967296)
  let le := fun w =>
    [w &&& 255, (w >>> 8) &&& 255, (w >>> 16) &&& 255, (w >>> 24) &&& 255]
  le w0 ++ le w1 ++ (base_salt.drop 8).take 8

/-- The 36-byte candidate representation that `process_hit` rebuilds:
flags byte, workchain byte, first hash byte rewritten through the free mask,
remaining hash bytes, then the big-endian CRC16. -/
def hit_repr (cfg : KernelConfig) (owner_raw base_salt : List Nat)
    (iter_idx idx variant_idx : Nat) : List Nat :=
  let salt := xor_salt base_salt iter_idx idx
  let code_repr := build_code_repr owner_raw salt
  let code_hash := sha256 code_repr
  let pre := cfg.stateinit_variants.getD variant_idx []
  let main_hash := sha256 (pre ++ code_hash)
  let hash0 := (main_hash.getD 0 0 &&& (255 ^^^ (cfg.free_hash_mask &&& 255))) |||
    (cfg.free_hash_val &&& cfg.free_hash_mask)
  let first34 := cfg.flags_hi :: cfg.flags_lo :: hash0 ::
    ((main_hash.drop 1).take 31)
  let crc_val := crc16 first34 cfg.crc16_tab
  first34 ++ [(crc_val >>> 8) &&& 255, crc_val &&& 255]

/-- One emitted `addresses.jsonl` record (the fields of `entry`/`init_obj`
that the claims inspect; `address` is the friendly string as code points). -/
structure HitEntry where
  address : List Nat
  init_code_boc : List Nat
  init_fixed_prefix_length : Nat
  init_special : Option (Nat × Nat)
deriving Repr, DecidableEq

/-- `generator.py::process_hit`: rebuild a kernel candidate, validate it, and
return the record to persist (`some entry` models `return True` after the
record is written; `none` models every `return False` branch). -/
def process_hit (cfg : KernelConfig) (cli : CliConfig) (owner_raw : List Nat)
    (start_digit_base : Nat) (base_salt : List Nat)
    (iter_idx idx variant_idx : Nat) : Option HitEntry :=
  if cfg.stateinit_variants.length ≤ variant_idx then none
  else
    let salt := xor_salt base_salt iter_idx idx
    let code_repr := build_code_repr owner_raw salt
    let repr_bytes := hit_repr cfg owner_raw base_salt iter_idx idx variant_idx
    if ¬ ((List.range cfg.prefix_mask.length).all (fun i =>
        cfg.prefix_mask.getD i 0 = 0 ∨
        repr_bytes.getD i 0 &&& cfg.prefix_mask.getD i 0 = cfg.prefix_val.getD i 0))
    then none
    else
      let addr_str := b64encode repr_bytes
      let start_ok : Bool :=
        if cli.start ≠ [] then
          let sl := (addr_str.drop start_digit_base).take cli.start.length
          if cli.case_sensitive then sl = cli.start
          else sl.map py_lower = cli.start.map py_lower
        else true
      let end_ok : Bool :=
        if cli.end_ ≠ [] then
          let sl := addr_str.drop (addr_str.length - cli.end_.length)
          if cli.case_sensitive then sl = cli.end_
          else sl.map py_lower = cli.end_.map py_lower
        else true
      if start_ok = false then none
      else if end_ok = false then none
      else
        let split_idx := variant_idx / cfg.special_variants.length
        let special_idx := variant_idx % cfg.special_variants.length
        let fpl_val := cfg.fixed_prefix_lengths.getD split_idx none
        let special := cfg.special_variants.getD special_idx none
        some { address := addr_str,
               init_code_boc := to_boc_single_cell code_repr,
               init_fixed_prefix_length := fpl_val.getD 0,
               init_special := special }

/-- The arguments `parse_cli` receives back from `argparse` (argument-syntax
errors, which `argparse` itself reports with exit code 2, happen before this
point and are outside the model). -/
structure ParsedArgs where
  owner : List Nat
  start : Option (List Nat)
  end_ : Option (List Nat)
  masterchain : Bool
  non_bounceable : Bool
  testnet : Bool
  case_sensitive : Bool
  only_one : Bool
deriving Repr, DecidableEq

/-- Outcome of `parse_cli`: a configuration, or process termination with an
exit code and an optional one-line stderr message (`none` when the message
went to stdout, as in the missing-pattern branch). -/
inductive CliOutcome where
  | ok (cfg : CliConfig)
  | exit (code : Nat) (stderr_line : Option (List Nat))
deriving Repr, DecidableEq

/-- Python truthiness of an `Optional[str]`. -/
def opt_truthy (o : Option (List Nat)) : Bool :=
  match o with
  | none => false
  | some s => s ≠ []

/-- `generator.py::parse_cli` after successful `argparse` parsing: the
missing-pattern branch prints usage plus a message to stdout and calls
`sys.exit(0)`; every `die(...)` branch prints one line to stderr and calls
`sys.exit(1)`. -/
def parse_cli (args : ParsedArgs) : CliOutcome :=
  if ¬ opt_truthy args.start ∧ ¬ opt_truthy args.end_ then
    .exit 0 none
  else if ¬ is_base64url args.owner then
    .exit 1 (some (pyStr "--owner must be base64url (no padding)"))
  else
    match urlsafe_b64decode_pad args.owner with
    | none => .exit 1 (some (pyStr "--owner is not valid base64url"))
    | some owner_raw =>
      if owner_raw.length < 34 then
        .exit 1 (some (pyStr "--owner decoded payload is too short (expected friendly address)"))
      else if opt_truthy args.start ∧ ¬ is_base64url (args.start.getD []) then
        .exit 1 (some (pyStr "--start must contain only base64url characters"))
      else if opt_truthy args.end_ ∧ ¬ is_base64url (args.end_.getD []) then
        .exit 1 (some (pyStr "--end must contain only base64url characters"))
      else
        .ok { owner := args.owner, start := args.start.getD [],
              end_ := args.end_.getD [],
              masterchain := args.masterchain,
              non_bounceable := args.non_bounceable,
              testnet := args.testnet,
              case_sensitive := args.case_sensitive,
              only_one := args.only_one }

/-- Decimal rendering of a natural number as code points (`str(n)`). -/
def natDec (n : Nat) : List Nat :=
  if h : n < 10 then [48 + n] else natDec (n / 10) ++ [48 + n % 10]
  termination_by n
  decreasing_by exact Nat.div_lt_self (by omega) (by omega)

/-- Lowercase hex digit. -/
def hexDigit (v : Nat) : Nat := if v < 10 then 48 + v else 87 + v

/-- `f"0x{w:08x}u"` as code points. -/
def hex08u (w : Nat) : List Nat :=
  [48, 120] ++ (List.range 8).map (fun i => hexDigit ((w >>> (28 - 4 * i)) &&& 15)) ++ [117]

/-- `", ".join(...)`. -/
def joinComma (parts : List (List Nat)) : List Nat :=
  List.intercalate [44, 32] parts

/-- `",\n    ".join("{ " + ... + " }")` used for matrix placeholders
(123/125 are the brace code points). -/
def joinRows (rows : List (List Nat)) : List Nat :=
  List.intercalate [44, 10, 32, 32, 32, 32]
    (rows.map (fun r => [123, 32] ++ r ++ [32, 125]))

/-- Python `str.replace(pat, repl)`: replace all non-overlapping occurrences
left to right (never called with an empty pattern by `render_kernel`). -/
def replaceAll (pat repl : List Nat) : List Nat → List Nat
  | [] => []
  | c :: rest =>
    if h : pat ≠ [] ∧ pat.isPrefixOf (c :: rest) then
      repl ++ replaceAll pat repl ((c :: rest).drop pat.length)
    else c :: replaceAll pat repl rest
  termination_by s => s.length
  decreasing_by
    · simp [List.length_drop]
      have hp : 0 < pat.length := List.length_pos.mpr h.1
      omega
    · simp

/-- The placeholder/value substitution list of `generator.py::render_kernel`,
in source order. -/
def kernel_tag_values (cfg : KernelConfig) : List (List Nat × List Nat) :=
  [(pyStr "<<CODE_PREFIX_BYTES>>", joinComma (cfg.code_prefix_bytes.map natDec)),
   (pyStr "<<CODE_STATE_BASE>>", joinComma (cfg.code_state_base.map hex08u)),
   (pyStr "<<CRC16_TABLE>>", joinComma (cfg.crc16_tab.map natDec)),
   (pyStr "<<PREFIX_W_MATRIX>>",
     joinRows (cfg.prefix_w_matrix.map (fun row => joinComma (row.map natDec)))),
   (pyStr "<<PREFIX_MASK>>", joinComma (cfg.prefix_mask.map natDec)),
   (pyStr "<<PREFIX_VAL>>", joinComma (cfg.prefix_val.map natDec)),
   (pyStr "<<HAS_CRC_CONSTRAINT>>", natDec cfg.has_crc),
   (pyStr "<<N_ACTIVE>>", natDec cfg.prefix_pos.length),
   (pyStr "<<N_ACTIVE_NOCRC>>", natDec cfg.prefix_pos_nocrc.length),
   (pyStr "<<PREFIX_POS>>", joinComma (cfg.prefix_pos.map natDec)),
   (pyStr "<<PREFIX_POS_NOCRC>>", joinComma (cfg.prefix_pos_nocrc.map natDec)),
   (pyStr "<<N_CASE_INSENSITIVE>>", natDec cfg.ci_bitpos.length),
   (pyStr "<<CASE_BITPOS>>", joinComma (cfg.ci_bitpos.map natDec)),
   (pyStr "<<CASE_ALT0>>", joinComma (cfg.ci_alt0.map natDec)),
   (pyStr "<<CASE_ALT1>>", joinComma (cfg.ci_alt1.map natDec)),
   (pyStr "<<N_STATEINIT_VARIANTS>>", natDec cfg.stateinit_variants.length),
   (pyStr "<<STATEINIT_PREFIX_MAX_LEN>>", natDec cfg.stateinit_prefix_max_len),
   (pyStr "<<STATEINIT_PREFIX_MATRIX>>",
     joinRows (cfg.stateinit_prefix_padded.map (fun row => joinComma (row.map natDec)))),
   (pyStr "<<STATEINIT_PREFIX_LENS>>", joinComma (cfg.stateinit_prefix_lens.map natDec)),
   (pyStr "<<FLAGS_HI>>", natDec cfg.flags_hi),
   (pyStr "<<FLAGS_LO>>", natDec cfg.flags_lo),
   (pyStr "<<FREE_HASH_MASK>>", natDec cfg.free_hash_mask),
   (pyStr "<<FREE_HASH_VAL>>", natDec cfg.free_hash_val)]

/-- `generator.py::render_kernel`, with the template file contents passed in
explicitly (the source reads `kernel.cl` from disk): apply each `repl`
substitution in order and return the result.  The source performs no check on
the result before returning it. -/
def render_kernel (cfg : KernelConfig) (template : List Nat) : List Nat :=
  (kernel_tag_values cfg).foldl (fun s tv => replaceAll tv.1 tv.2 s) template

/-- A Boolean occurrence test: does `pat` occur as a contiguous substring? -/
def occursIn (pat : List Nat) : List Nat → Bool
  | [] => pat.isPrefixOf []
  | c :: rest => pat.isPrefixOf (c :: rest) || occursIn pat rest

/-- A placeholder of the form `<<[A-Z0-9_]+>>` occurs at position `i`. -/
def placeholder_at (s : List Nat) (i : Nat) (w : List Nat) : Prop :=
  w ≠ [] ∧ (∀ c ∈ w, (65 ≤ c ∧ c ≤ 90) ∨ (48 ≤ c ∧ c ≤ 57) ∨ c = 95) ∧
    ((s.drop i).take (w.length + 4)) = 60 :: 60 :: (w ++ [62, 62])

/-- Some placeholder of the form `<<[A-Z0-9_]+>>` occurs in `s`. -/
def has_placeholder (s : List Nat) : Prop := ∃ i w, placeholder_at s i w

/-- Bit `q` (big-endian numbering, bit 0 = MSB of byte 0) of a byte list. -/
def addr_bit (l : List Nat) (q : Nat) : Nat :=
  (l.getD (q / 8) 0 >>> (7 - q % 8)) &&& 1

/-- The 6-bit value of base64 digit `d` of a byte list. -/
def digit6 (l : List Nat) (d : Nat) : Nat :=
  32 * addr_bit l (6 * d) + 16 * addr_bit l (6 * d + 1) + 8 * addr_bit l (6 * d + 2) +
    4 * addr_bit l (6 * d + 3) + 2 * addr_bit l (6 * d + 4) + addr_bit l (6 * d + 5)

/-- Bit `q` (big-endian position numbering) of a 36-byte mask array. -/
def mget (l : List Nat) (q : Nat) : Bool :=
  Nat.testBit (l.getD (q / 8) 0) (7 - q % 8)

/-- The bit of a free-byte mask corresponding to address bit `q` (byte 2). -/
def fbit (x q : Nat) : Bool := Nat.testBit x (7 - q % 8)

/-- Number of set bits among the low 8 bits. -/
def popcount8 (x : Nat) : Nat :=
  (List.range 8).foldl (fun a i => a + ((x >>> i) &&& 1)) 0

/-- Bits of `prefix_mask`/`free_hash_mask` constrained inside address bytes 2
and 3 (the counting used by the literal start-pattern scenario). -/
def constrained_bits_2_3 (cfg : KernelConfig) : Nat :=
  popcount8 (cfg.free_hash_mask &&& 255) + popcount8 (cfg.prefix_mask.getD 2 0) +
    popcount8 (cfg.prefix_mask.getD 3 0)

/-- The spec's wording of start-alignment compatibility at digit offset `d`:
every pattern digit has at least one allowed 6-bit variant agreeing with the
fixed flag/workchain bits (bits 0..15) on every overlapping position. -/
def alignment_ok (start : List Nat) (case_sensitive : Bool)
    (prefix_bits : List Nat) (d : Nat) : Prop :=
  ∀ ci < start.length, ∃ v ∈ char_bit_variants (start.getD ci 0) case_sensitive,
    ∀ b < 6, 6 * d + 6 * ci + b < 16 →
      v.getD b 0 = prefix_bits.getD (6 * d + 6 * ci + b) 0

/-- The owner string of the spec's literal scenarios. -/
def owner_str7 : List Nat :=
  pyStr "EQAAAAAAAAAAAAAAAAAAAAAAAAAAAAAAAAAAAAAAAAAAAM9c"

/-- Its 36 decoded bytes. -/
def owner7 : List Nat := b64decode owner_str7

/-- The CLI configuration of literal scenario 2: `--start kQBE`,
case-sensitive, bounceable mainnet. -/
def cli7 : CliConfig :=
  { owner := owner_str7, start := pyStr "kQBE", end_ := [],
    masterchain := false, non_bounceable := false, testnet := false,
    case_sensitive := true, only_one := false }

/-- The CLI configuration of literal scenario 3: `--end AAAA`,
case-insensitive. -/
def cliE : CliConfig :=
  { owner := owner_str7, start := [], end_ := pyStr "AAAA",
    masterchain := false, non_bounceable := false, testnet := false,
    case_sensitive := false, only_one := false }

/-- A 47-character start pattern used to separate the implemented offset
search (bounded by the pattern fitting in the address) from the spec's
unbounded description. -/
def start47 : List Nat := List.replicate 47 65

/-- Its CLI configuration. -/
def cli47 : CliConfig := { cli7 with start := start47 }

/-- A mask-satisfying 36-byte representation for the `kQBE` configuration:
flags bytes, the free-byte value in byte 2, the masked values in bytes 3-5. -/
def reprW : List Nat := [17, 0, 36, 64, 17] ++ List.replicate 31 0

/-- A mask-satisfying representation with the flags bytes zeroed (satisfies
every `prefix_mask` constraint of the `kQBE` configuration but encodes to a
different string). -/
def reprBad : List Nat := [0, 0, 0, 64, 17] ++ List.replicate 31 0

/-- A patternless CLI configuration used to drive `process_hit` through its
accepting path. -/
def cliW6 : CliConfig :=
  { owner := owner_str7, start := [], end_ := [],
    masterchain := false, non_bounceable := false, testnet := false,
    case_sensitive := true, only_one := false }

/-- Its kernel configuration. -/
def cfgW6 : KernelConfig := (build_kernel_config cliW6 owner7).1

/-- The representation `process_hit` rebuilds for the all-zero base salt,
slot `(0, 0, 0)`. -/
def reprW6 : List Nat := hit_repr cfgW6 owner7 (List.replicate 16 0) 0 0 0

/-- The record `process_hit` persists for that hit. -/
def entryW6 : HitEntry :=
  { address := b64encode reprW6,
    init_code_boc :=
      to_boc_single_cell (build_code_repr owner7 (xor_salt (List.replicate 16 0) 0 0)),
    init_fixed_prefix_length := 0,
    init_special := none }

/-- A minimal kernel configuration (everything zero or empty) used to
exercise `render_kernel` on templates containing unknown placeholders. -/
def kcfg0 : KernelConfig :=
  { flags_hi := 0, flags_lo := 0, free_hash_mask := 0, free_hash_val := 0,
    prefix_mask := [], prefix_val := [], has_crc := 0, prefix_pos := [],
    prefix_pos_nocrc := [], stateinit_variants := [], stateinit_prefix_lens := [],
    stateinit_prefix_max_len := 0, stateinit_prefix_padded := [],
    prefix_w_matrix := [], code_prefix_bytes := [], code_state_base := [],
    crc16_tab := [], fixed_prefix_lengths := [], special_variants := [],
    ci_bitpos := [], ci_alt0 := [], ci_alt1 := [] }

/-- A template consisting of one unknown placeholder. -/
def tmplFoo : List Nat := pyStr "<<FOO>>"

/-- Parsed arguments with a valid owner but neither `--start` nor `--end`. -/
def argsMissing : ParsedArgs :=
  { owner := owner_str7, start := none, end_ := none,
    masterchain := false, non_bounceable := false, testnet := false,
    case_sensitive := false, only_one := false }

/-! ## Helper lemmas -/

theorem and_one_le_one (x : Nat) : x &&& 1 ≤ 1 := Nat.and_le_right

theorem addr_bit_le_one (l : List Nat) (q : Nat) : addr_bit l q ≤ 1 :=
  Nat.and_le_right

theorem shl_or_bit (x b : Nat) (hb : b ≤ 1) : (x <<< 1) ||| b = 2 * x + b := by
  have hx : x <<< 1 = 2 * x := by
    rw [Nat.shiftLeft_eq]; ring
  rcases Nat.le_one_iff_eq_zero_or_eq_one.mp hb with h | h <;> subst h
  · simp [hx]
  · rw [hx]
    apply Nat.eq_of_testBit_eq
    intro i
    cases i with
    | zero =>
      simp only [Nat.testBit_or, Nat.testBit_to_div_mod]
      norm_num
      omega
    | succ n =>
      simp only [Nat.testBit_or]
      rw [Nat.testBit_add_one, Nat.testBit_add_one, Nat.testBit_add_one]
      have h1 : (2 * x + 1) / 2 = x := by omega
      have h3 : 2 * x / 2 = x := by omega
      have h2 : (1 : Nat) / 2 = 0 := by norm_num
      rw [h1, h2, h3]
      simp [Nat.zero_testBit]

theorem byteOfBits8_eq (b0 b1 b2 b3 b4 b5 b6 b7 : Nat)
    (h0 : b0 ≤ 1) (h1 : b1 ≤ 1) (h2 : b2 ≤ 1) (h3 : b3 ≤ 1)
    (h4 : b4 ≤ 1) (h5 : b5 ≤ 1) (h6 : b6 ≤ 1) (h7 : b7 ≤ 1) :
    byteOfBits [b0, b1, b2, b3, b4, b5, b6, b7] =
      128 * b0 + 64 * b1 + 32 * b2 + 16 * b3 + 8 * b4 + 4 * b5 + 2 * b6 + b7 := by
  simp only [byteOfBits, List.foldl]
  rw [shl_or_bit _ _ h0, shl_or_bit _ _ h1, shl_or_bit _ _ h2, shl_or_bit _ _ h3,
      shl_or_bit _ _ h4, shl_or_bit _ _ h5, shl_or_bit _ _ h6, shl_or_bit _ _ h7]
  ring

theorem byteOfBits6_eq (b0 b1 b2 b3 b4 b5 : Nat)
    (h0 : b0 ≤ 1) (h1 : b1 ≤ 1) (h2 : b2 ≤ 1) (h3 : b3 ≤ 1)
    (h4 : b4 ≤ 1) (h5 : b5 ≤ 1) :
    byteOfBits [b0, b1, b2, b3, b4, b5] =
      32 * b0 + 16 * b1 + 8 * b2 + 4 * b3 + 2 * b4 + b5 := by
  simp only [byteOfBits, List.foldl]
  rw [shl_or_bit _ _ h0, shl_or_bit _ _ h1, shl_or_bit _ _ h2, shl_or_bit _ _ h3,
      shl_or_bit _ _ h4, shl_or_bit _ _ h5]
  ring

theorem bit_extract_div_mod (x k : Nat) : (x >>> k) &&& 1 = x / 2 ^ k % 2 := by
  rw [Nat.shiftRight_eq_div_pow, Nat.and_one_is_mod]

theorem byteOfBits_bits_from_byte (b : Nat) (hb : b < 256) :
    byteOfBits (bits_from_byte b) = b := by
  simp only [bits_from_byte]
  rw [byteOfBits8_eq _ _ _ _ _ _ _ _ Nat.and_le_right Nat.and_le_right
    Nat.and_le_right Nat.and_le_right Nat.and_le_right Nat.and_le_right
    Nat.and_le_right Nat.and_le_right]
  simp only [bit_extract_div_mod]
  norm_num
  omega

/-! ## Basic length lemmas -/

theorem int_to_bits_length (x n : Nat) : (int_to_bits x n).length = n := by
  simp [int_to_bits]

theorem bits_from_byte_length (b : Nat) : (bits_from_byte b).length = 8 := by
  simp [bits_from_byte]

theorem bytesToBits_length (l : List Nat) : (bytesToBits l).length = 8 * l.length := by
  induction l with
  | nil => simp [bytesToBits]
  | cons b t ih =>
    simp only [bytesToBits, List.flatMap_cons, List.length_append, bits_from_byte_length]
    simp only [bytesToBits] at ih
    simp [ih]; ring

theorem base64url_bits_length (c : Nat) : (base64url_bits c).length = 6 := by
  simp [base64url_bits]

theorem owner_bits_length (o : List Nat) (h : 34 ≤ o.length) :
    (owner_bits o).length = 267 := by
  have h1 := bytesToBits_length ((o.drop 2).take 32)
  simp only [bytesToBits] at h1
  simp only [owner_bits, List.length_append, List.length_cons, List.length_nil,
    bits_from_byte_length, h1, List.length_take, List.length_drop]
  omega

theorem code_bits_length (o s : List Nat) (ho : 34 ≤ o.length) :
    (code_bits o s).length = 496 + 8 * s.length := by
  have h1 := bytesToBits_length s
  simp only [bytesToBits] at h1
  simp only [code_bits, List.length_append, int_to_bits_length,
    owner_bits_length o ho, h1]

theorem packBits_append (k : Nat) : ∀ a b : List Nat, a.length = 8 * k →
    packBits (a ++ b) = packBits a ++ packBits b := by
  induction k with
  | zero =>
    intro a b ha
    have ha0 : a = [] := List.length_eq_zero.mp (by omega)
    subst ha0
    simp [packBits]
  | succ n ih =>
    intro a b ha
    rcases a with _ | ⟨a0, a⟩; · simp at ha
    rcases a with _ | ⟨a1, a⟩; · simp at ha; omega
    rcases a with _ | ⟨a2, a⟩; · simp at ha; omega
    rcases a with _ | ⟨a3, a⟩; · simp at ha; omega
    rcases a with _ | ⟨a4, a⟩; · simp at ha; omega
    rcases a with _ | ⟨a5, a⟩; · simp at ha; omega
    rcases a with _ | ⟨a6, a⟩; · simp at ha; omega
    rcases a with _ | ⟨a7, rest⟩; · simp at ha; omega
    have hr : rest.length = 8 * n := by simp at ha; omega
    simp only [List.cons_append, packBits]
    rw [List.append_eq, ih rest b hr]

theorem packBits_length_full (k : Nat) : ∀ a : List Nat, a.length = 8 * k →
    (packBits a).length = k := by
  induction k with
  | zero =>
    intro a ha
    have : a = [] := List.length_eq_zero.mp (by omega)
    subst this; simp [packBits]
  | succ n ih =>
    intro a ha
    rcases a with _ | ⟨a0, a⟩; · simp at ha
    rcases a with _ | ⟨a1, a⟩; · simp at ha; omega
    rcases a with _ | ⟨a2, a⟩; · simp at ha; omega
    rcases a with _ | ⟨a3, a⟩; · simp at ha; omega
    rcases a with _ | ⟨a4, a⟩; · simp at ha; omega
    rcases a with _ | ⟨a5, a⟩; · simp at ha; omega
    rcases a with _ | ⟨a6, a⟩; · simp at ha; omega
    rcases a with _ | ⟨a7, rest⟩; · simp at ha; omega
    have hr : rest.length = 8 * n := by simp at ha; omega
    simp only [packBits, List.length_cons]
    rw [ih rest hr]

/-! ## C4: salt noninterference and midstate correctness -/

/-- C4: for every owner of at least 34 bytes and every pair of 16-byte salts,
the first 64 bytes of the code-cell representation coincide; and
`code_state_base` is the SHA-256 compression of the standard IV over the
first 64 bytes of the zero-salt representation. -/
theorem code_repr_salt_noninterference (owner_raw s1 s2 : List Nat) (cli : CliConfig)
    (ho : 34 ≤ owner_raw.length) (h1 : s1.length = 16) (h2 : s2.length = 16) :
    (build_code_repr owner_raw s1).take 64 = (build_code_repr owner_raw s2).take 64 ∧
    (build_kernel_config cli owner_raw).1.code_state_base =
      sha256_compress_block ((build_code_repr owner_raw (List.replicate 16 0)).take 64)
        none := by
  constructor
  · have hF : (int_to_bits CONST1 50 ++ owner_bits owner_raw ++
        int_to_bits CONST2 179).length = 496 := by
      simp only [List.length_append, int_to_bits_length, owner_bits_length owner_raw ho]
    have key : ∀ s : List Nat, s.length = 16 →
        (build_code_repr owner_raw s).take 64 = 0 :: 156 ::
          packBits (int_to_bits CONST1 50 ++ owner_bits owner_raw ++
            int_to_bits CONST2 179) := by
      intro s hs
      have hsplit : code_bits owner_raw s =
          (int_to_bits CONST1 50 ++ owner_bits owner_raw ++ int_to_bits CONST2 179) ++
            s.flatMap bits_from_byte := by
        simp [code_bits, List.append_assoc]
      have hlen : (code_bits owner_raw s).length = 624 := by
        rw [code_bits_length owner_raw s ho, hs]
      simp only [build_code_repr, hlen]
      norm_num
      rw [hsplit, packBits_append 62 _ _ (by rw [hF])]
      rw [List.take_left' (packBits_length_full 62 _ (by rw [hF]))]
      simp [List.append_assoc]
    rw [key s1 h1, key s2 h2]
  · simp [build_kernel_config]

/-- C4 (witness): the two conjuncts at the literal owner with the zero salt
and the all-ones salt. -/
theorem code_repr_salt_noninterference_witness :
    ((build_code_repr owner7 (List.replicate 16 0)).take 64 =
      (build_code_repr owner7 (List.replicate 16 1)).take 64) ∧
    (build_kernel_config cliW6 owner7).1.code_state_base =
      sha256_compress_block ((build_code_repr owner7 (List.replicate 16 0)).take 64)
        none :=
  code_repr_salt_noninterference owner7 (List.replicate 16 0) (List.replicate 16 1)
    cliW6 (by decide) (by decide) (by decide)

/-! ## C5: code-cell shape -/

/-- C5: for every owner of at least 34 bytes and 16-byte salt,
`build_code_repr` returns exactly 80 bytes, its first byte is `d1 = 0x00`,
its data part encodes exactly 624 bits laid out as `CONST1`, the 267-bit
owner `MsgAddressInt`, `CONST2`, then the 128 salt bits, and the lengths the
source asserts all hold. -/
theorem build_code_repr_shape (owner_raw salt : List Nat)
    (hs : salt.length = 16) (ho : 34 ≤ owner_raw.length) :
    (build_code_repr owner_raw salt).length = 80 ∧
    (build_code_repr owner_raw salt).getD 0 0 = 0 ∧
    (code_bits owner_raw salt).length = 624 ∧
    (owner_bits owner_raw).length = 267 ∧
    (salt.flatMap bits_from_byte).length = 128 ∧
    code_bits owner_raw salt =
      int_to_bits CONST1 50 ++ (owner_bits owner_raw ++
        (int_to_bits CONST2 179 ++ salt.flatMap bits_from_byte)) := by
  have hlen : (code_bits owner_raw salt).length = 624 := by
    rw [code_bits_length owner_raw salt ho, hs]
  have hsl : (salt.flatMap bits_from_byte).length = 128 := by
    have := bytesToBits_length salt
    simp only [bytesToBits] at this
    rw [this, hs]
  refine ⟨?_, by simp [build_code_repr], hlen, owner_bits_length owner_raw ho, hsl,
    by simp [code_bits, List.append_assoc]⟩
  simp only [build_code_repr, List.length_cons]
  rw [packBits_length_full 78 _ (by rw [hlen])]

/-- C5 (witness): the shape facts at the literal owner and the zero salt. -/
theorem build_code_repr_shape_witness :
    (build_code_repr owner7 (List.replicate 16 0)).length = 80 ∧
    (build_code_repr owner7 (List.replicate 16 0)).getD 0 0 = 0 ∧
    (code_bits owner7 (List.replicate 16 0)).length = 624 ∧
    (owner_bits owner7).length = 267 ∧
    ((List.replicate 16 0 : List Nat).flatMap bits_from_byte).length = 128 ∧
    code_bits owner7 (List.replicate 16 0) =
      int_to_bits CONST1 50 ++ (owner_bits owner7 ++
        (int_to_bits CONST2 179 ++ (List.replicate 16 0 : List Nat).flatMap bits_from_byte)) :=
  build_code_repr_shape owner7 (List.replicate 16 0) (by decide) (by decide)

/-! ## C3: StateInit variant enumeration -/

/-- C3 (counterexample): with an empty start pattern the compiler produces 50
StateInit variants, not the 45 the claim states. -/
theorem stateinit_variants_not_45 :
    (build_kernel_config cliE owner7).1.stateinit_variants.length ≠ 45 := by decide

/-- C3 (amended): when `start` is non-empty, `build_kernel_config` uses the
single fixed-prefix-length 8 and produces exactly 5 StateInit variants (one
per special choice in `[None,(0,0),(0,1),(1,0),(1,1)]`); when `start` is
empty it enumerates all **10** fixed-prefix-length values (`None` plus 0..8)
crossed with the 5 special choices, producing exactly **50** variants, in
that nesting order (fixed-prefix-length outer, special inner). -/
theorem stateinit_variant_enumeration (cli : CliConfig) (owner_raw : List Nat) :
    (build_kernel_config cli owner_raw).1.stateinit_variants =
      (if cli.start = [] then none :: (List.range 9).map some else [some 8]).flatMap
        (fun fpl => special_variants_list.map
          (fun sp => build_stateinit_prefix_bytes fpl sp)) ∧
    (build_kernel_config cli owner_raw).1.stateinit_variants.length =
      (if cli.start = [] then 50 else 5) ∧
    (build_kernel_config cli owner_raw).1.fixed_prefix_lengths =
      (if cli.start = [] then none :: (List.range 9).map some else [some 8]) := by
  have hfpl : (build_kernel_config cli owner_raw).1.fixed_prefix_lengths =
      fixed_prefix_lengths_of cli := by
    simp [build_kernel_config]
  have hv : (build_kernel_config cli owner_raw).1.stateinit_variants =
      (fixed_prefix_lengths_of cli).flatMap (fun fpl => special_variants_list.map
        (fun sp => build_stateinit_prefix_bytes fpl sp)) := by
    simp [build_kernel_config]
  refine ⟨?_, ?_, ?_⟩
  · rw [hv]; by_cases h : cli.start = [] <;> simp [fixed_prefix_lengths_of, h]
  · rw [hv]
    by_cases h : cli.start = [] <;>
      simp only [fixed_prefix_lengths_of, h, if_true, if_false, ne_eq,
        not_true_eq_false, not_false_eq_true] <;> decide
  · rw [hfpl]; by_cases h : cli.start = [] <;> simp [fixed_prefix_lengths_of, h]

/-! ## C10: variant-index decomposition -/

/-- C10: the `(fixed_prefix_lengths[variant_idx // 5],
special_variants[variant_idx % 5])` pair that `process_hit` reports is
exactly the pair from which `stateinit_variants[variant_idx]` was built. -/
theorem variant_index_decomposition (cli : CliConfig) (owner_raw : List Nat)
    (vi : Nat)
    (h : vi < (build_kernel_config cli owner_raw).1.stateinit_variants.length) :
    (build_kernel_config cli owner_raw).1.stateinit_variants.getD vi [] =
      build_stateinit_prefix_bytes
        ((build_kernel_config cli owner_raw).1.fixed_prefix_lengths.getD (vi / 5) none)
        ((build_kernel_config cli owner_raw).1.special_variants.getD (vi % 5) none) := by
  have hv : (build_kernel_config cli owner_raw).1.stateinit_variants =
      (fixed_prefix_lengths_of cli).flatMap (fun fpl => special_variants_list.map
        (fun sp => build_stateinit_prefix_bytes fpl sp)) := by
    simp [build_kernel_config]
  have hf : (build_kernel_config cli owner_raw).1.fixed_prefix_lengths =
      fixed_prefix_lengths_of cli := by
    simp [build_kernel_config]
  have hsp : (build_kernel_config cli owner_raw).1.special_variants =
      special_variants_list := by
    simp [build_kernel_config]
  rw [hv, hf, hsp]
  rw [hv] at h
  revert h
  by_cases hc : cli.start = [] <;>
    simp only [fixed_prefix_lengths_of, hc, if_true, if_false, ne_eq,
      not_true_eq_false, not_false_eq_true] <;>
    revert vi <;> decide

/-- C10 (witness): the decomposition at `variant_idx = 7` of the patternless
enumeration (50 variants). -/
theorem variant_index_decomposition_witness :
    (build_kernel_config cliE owner7).1.stateinit_variants.getD 7 [] =
      build_stateinit_prefix_bytes
        ((build_kernel_config cliE owner7).1.fixed_prefix_lengths.getD (7 / 5) none)
        ((build_kernel_config cliE owner7).1.special_variants.getD (7 % 5) none) :=
  variant_index_decomposition cliE owner7 7 (by decide)

/-! ## C9: kernel renderer has no completeness check -/

theorem replaceAll_of_not_occurs (pat repl : List Nat) :
    ∀ s : List Nat, occursIn pat s = false → replaceAll pat repl s = s := by
  intro s
  induction s with
  | nil => intro _; simp [replaceAll]
  | cons c rest ih =>
    intro h
    simp only [occursIn, Bool.or_eq_false_iff] at h
    rw [replaceAll]
    have hcond : ¬ (pat ≠ [] ∧ pat.isPrefixOf (c :: rest) = true) := by
      rintro ⟨-, hp⟩
      rw [h.1] at hp
      exact Bool.false_ne_true hp
    rw [dif_neg hcond]
    rw [ih h.2]

theorem foldl_replaceAll_id : ∀ (l : List (List Nat × List Nat)) (s : List Nat),
    (∀ tv ∈ l, occursIn tv.1 s = false) →
    l.foldl (fun s tv => replaceAll tv.1 tv.2 s) s = s := by
  intro l
  induction l with
  | nil => intro s _; rfl
  | cons tv rest ih =>
    intro s h
    simp only [List.foldl_cons]
    rw [replaceAll_of_not_occurs _ _ s (h tv (by simp))]
    exact ih s (fun x hx => h x (by simp [hx]))

/-- C9 (counterexample): rendering the template `<<FOO>>` (whose placeholder
is not among the substituted tags) returns it unchanged — a placeholder of
the form `<<[A-Z0-9_]+>>` remains in the returned source and no error is
raised, contradicting the claimed completeness check. -/
theorem render_kernel_leaves_placeholder :
    render_kernel kcfg0 tmplFoo = tmplFoo ∧
    has_placeholder (render_kernel kcfg0 tmplFoo) := by
  have h : render_kernel kcfg0 tmplFoo = tmplFoo := by
    apply foldl_replaceAll_id
    decide
  exact ⟨h, by rw [h]; exact ⟨0, pyStr "FOO", by decide, by decide, by decide⟩⟩

/-- C9 (amended): `render_kernel` substitutes only its fixed tag list by
plain textual replacement and returns the result unconditionally: there is no
completeness check and no `UnresolvedPlaceholder` failure, and a template
containing none of the known tags — for example one consisting of an unknown
placeholder — is returned verbatim. -/
theorem render_kernel_no_completeness_check (cfg : KernelConfig) (t : List Nat)
    (h : ∀ tv ∈ kernel_tag_values cfg, occursIn tv.1 t = false) :
    render_kernel cfg t = t :=
  foldl_replaceAll_id _ t h

/-- C9 (witness): the amended statement applied to the unknown-placeholder
template. -/
theorem render_kernel_no_completeness_check_witness :
    render_kernel kcfg0 tmplFoo = tmplFoo :=
  render_kernel_no_completeness_check kcfg0 tmplFoo (by decide)

/-! ## C7: the literal `kQBE` scenario -/

/-- C7 (counterexample): with owner `EQAA…M9c`, start pattern `kQBE`,
case-sensitive matching and bounceable mainnet flags, the compiler does not
produce `start_digit_base = 0`: the first base64 digit of `kQBE` (value 36)
contradicts the fixed flag bits at every digit offset below 3. -/
theorem literal_scenario_base_not_zero :
    (build_kernel_config cli7 owner7).2 ≠ 0 := by decide

/-- C7 (amended): with owner `EQAA…M9c`, start pattern `kQBE`, case-sensitive
matching and bounceable mainnet flags (flags byte 0x11, workchain byte 0x00),
the compiler produces `start_digit_base = 3`, constrains at least 12 bits in
address bytes 2..3 (six via `free_hash_mask`, eight via `prefix_mask`), and
yields exactly 5 StateInit variants. -/
theorem literal_scenario_kQBE :
    (build_kernel_config cli7 owner7).2 = 3 ∧
    12 ≤ constrained_bits_2_3 (build_kernel_config cli7 owner7).1 ∧
    popcount8 ((build_kernel_config cli7 owner7).1.free_hash_mask &&& 255) = 6 ∧
    popcount8 ((build_kernel_config cli7 owner7).1.prefix_mask.getD 3 0) = 8 ∧
    (build_kernel_config cli7 owner7).1.stateinit_variants.length = 5 := by decide

/-! ## C2 (counterexample): the offset search is bounded by the pattern
fitting inside the address -/

/-- C2 (counterexample): for the 47-character pattern `AAAA…A` under mainnet
flags, digit offset 2 satisfies the claimed agreement property while offsets
0 and 1 do not — so the smallest satisfying offset in 0..8 is 2 — yet
`choose_start_alignment` returns the fallback 3, because its search only
covers offsets at which the pattern still fits inside the 288-bit address
(`max_digit_offset = 1` here). -/
theorem alignment_not_minimal :
    (choose_start_alignment start47 true (prefix_bits_of cli47)).1 = 3 ∧
    alignment_ok start47 true (prefix_bits_of cli47) 2 ∧
    ¬ alignment_ok start47 true (prefix_bits_of cli47) 0 ∧
    ¬ alignment_ok start47 true (prefix_bits_of cli47) 1 := by
  refine ⟨by decide, ?_, ?_, ?_⟩ <;> unfold alignment_ok <;> decide

/-! ## Bit recombination lemmas -/

theorem and255_mod (x : Nat) : x &&& 255 = x % 256 := by
  have h : (255 : Nat) = 2 ^ 8 - 1 := by norm_num
  rw [h, Nat.and_pow_two_sub_one_eq_mod]

theorem shiftLeft8_or (a b : Nat) (hb : b < 256) : (a <<< 8) ||| b = 256 * a + b := by
  apply Nat.eq_of_testBit_eq
  intro i
  rw [Nat.testBit_or, Nat.testBit_shiftLeft]
  by_cases h8 : i < 8
  · have hd : ¬ (8 ≤ i) := by omega
    simp only [decide_eq_false hd, Bool.false_and, Bool.false_or]
    rw [Nat.testBit_to_div_mod, Nat.testBit_to_div_mod, decide_eq_decide]
    interval_cases i <;> omega
  · have hd : 8 ≤ i := by omega
    simp only [decide_eq_true hd, Bool.true_and]
    have h28 : (256 : Nat) ≤ 2 ^ i := by
      calc (256 : Nat) = 2 ^ 8 := by norm_num
        _ ≤ 2 ^ i := Nat.pow_le_pow_right (by norm_num) hd
    have hbf : b.testBit i = false :=
      Nat.testBit_eq_false_of_lt (lt_of_lt_of_le hb h28)
    rw [hbf, Bool.or_false]
    obtain ⟨j, rfl⟩ : ∃ j, i = 8 + j := ⟨i - 8, by omega⟩
    have hkey : (256 * a + b) / 2 ^ (8 + j) = a / 2 ^ j := by
      rw [Nat.pow_add, ← Nat.div_div_eq_div_mul]
      congr 1
      have h256 : (2 : Nat) ^ 8 = 256 := by norm_num
      rw [h256]
      omega
    rw [Nat.testBit_to_div_mod, Nat.testBit_to_div_mod, hkey, Nat.add_sub_cancel_left]

theorem crc_bytes_combine (x : Nat) (h : x < 65536) :
    (((x >>> 8) &&& 255) <<< 8) ||| (x &&& 255) = x := by
  rw [and255_mod, and255_mod, Nat.shiftRight_eq_div_pow]
  norm_num
  have h1 : x / 256 % 256 = x / 256 := Nat.mod_eq_of_lt (by omega)
  rw [h1, shiftLeft8_or _ _ (by omega)]
  omega

theorem crc16_foldl_lt (table : List Nat) :
    ∀ (l : List Nat) (acc : Nat), acc < 65536 →
      l.foldl (fun crc b =>
        ((crc <<< 8) ^^^ table.getD (((crc >>> 8) ^^^ b) &&& 255) 0) &&& 65535)
        acc < 65536 := by
  intro l
  induction l with
  | nil => intro acc h; simpa using h
  | cons x t ih =>
    intro acc h
    simp only [List.foldl_cons]
    exact ih _ (lt_of_le_of_lt Nat.and_le_right (by norm_num))

theorem crc16_lt (l table : List Nat) : crc16 l table < 65536 :=
  crc16_foldl_lt table l 0 (by norm_num)

/-! ## Base64 encode/decode round trip -/

theorem sixChunks_append (k : Nat) : ∀ a b : List Nat, a.length = 6 * k →
    sixChunks (a ++ b) = sixChunks a ++ sixChunks b := by
  induction k with
  | zero =>
    intro a b ha
    have ha0 : a = [] := List.length_eq_zero.mp (by omega)
    subst ha0
    simp [sixChunks]
  | succ n ih =>
    intro a b ha
    rcases a with _ | ⟨a0, a⟩; · simp at ha
    rcases a with _ | ⟨a1, a⟩; · simp at ha; omega
    rcases a with _ | ⟨a2, a⟩; · simp at ha; omega
    rcases a with _ | ⟨a3, a⟩; · simp at ha; omega
    rcases a with _ | ⟨a4, a⟩; · simp at ha; omega
    rcases a with _ | ⟨a5, rest⟩; · simp at ha; omega
    have hr : rest.length = 6 * n := by simp at ha; omega
    simp only [List.cons_append, sixChunks]
    rw [List.append_eq, ih rest b hr]

theorem packBitsFull_append (k : Nat) : ∀ a b : List Nat, a.length = 8 * k →
    packBitsFull (a ++ b) = packBitsFull a ++ packBitsFull b := by
  induction k with
  | zero =>
    intro a b ha
    have ha0 : a = [] := List.length_eq_zero.mp (by omega)
    subst ha0
    simp [packBitsFull]
  | succ n ih =>
    intro a b ha
    rcases a with _ | ⟨a0, a⟩; · simp at ha
    rcases a with _ | ⟨a1, a⟩; · simp at ha; omega
    rcases a with _ | ⟨a2, a⟩; · simp at ha; omega
    rcases a with _ | ⟨a3, a⟩; · simp at ha; omega
    rcases a with _ | ⟨a4, a⟩; · simp at ha; omega
    rcases a with _ | ⟨a5, a⟩; · simp at ha; omega
    rcases a with _ | ⟨a6, a⟩; · simp at ha; omega
    rcases a with _ | ⟨a7, rest⟩; · simp at ha; omega
    have hr : rest.length = 8 * n := by simp at ha; omega
    simp only [List.cons_append, packBitsFull]
    rw [List.append_eq, ih rest b hr]

theorem b64_value_CharCode : ∀ v < 64, base64url_value (b64CharCode v) = v := by
  decide

theorem bits_roundtrip6 (w0 w1 w2 w3 w4 w5 : Nat)
    (h0 : w0 ≤ 1) (h1 : w1 ≤ 1) (h2 : w2 ≤ 1) (h3 : w3 ≤ 1)
    (h4 : w4 ≤ 1) (h5 : w5 ≤ 1) :
    base64url_bits (b64CharCode (byteOfBits [w0, w1, w2, w3, w4, w5])) =
      [w0, w1, w2, w3, w4, w5] := by
  rw [byteOfBits6_eq _ _ _ _ _ _ h0 h1 h2 h3 h4 h5]
  have hv : 32 * w0 + 16 * w1 + 8 * w2 + 4 * w3 + 2 * w4 + w5 < 64 := by omega
  unfold base64url_bits
  rw [b64_value_CharCode _ hv]
  have hr : (List.range 6) = [0, 1, 2, 3, 4, 5] := by decide
  rw [hr]
  simp only [List.map_cons, List.map_nil, bit_extract_div_mod]
  norm_num
  refine ⟨by omega, by omega, by omega, by omega, by omega, by omega⟩

theorem block3_roundtrip (a b c : Nat) (ha : a < 256) (hb : b < 256) (hc : c < 256) :
    packBitsFull (((sixChunks (bits_from_byte a ++ bits_from_byte b ++
        bits_from_byte c)).map b64CharCode).flatMap base64url_bits) = [a, b, c] := by
  simp only [bits_from_byte, List.cons_append, List.nil_append]
  simp only [sixChunks]
  simp only [List.map_cons, List.map_nil, List.flatMap_cons, List.flatMap_nil]
  rw [bits_roundtrip6 _ _ _ _ _ _ (and_one_le_one _) (and_one_le_one _)
      (and_one_le_one _) (and_one_le_one _) (and_one_le_one _) (and_one_le_one _),
    bits_roundtrip6 _ _ _ _ _ _ (and_one_le_one _) (and_one_le_one _)
      (and_one_le_one _) (and_one_le_one _) (and_one_le_one _) (and_one_le_one _),
    bits_roundtrip6 _ _ _ _ _ _ (and_one_le_one _) (and_one_le_one _)
      (and_one_le_one _) (and_one_le_one _) (and_one_le_one _) (and_one_le_one _),
    bits_roundtrip6 _ _ _ _ _ _ (and_one_le_one _) (and_one_le_one _)
      (and_one_le_one _) (and_one_le_one _) (and_one_le_one _) (and_one_le_one _)]
  simp only [List.cons_append, List.nil_append, List.append_nil]
  simp only [packBitsFull]
  rw [byteOfBits8_eq _ _ _ _ _ _ _ _ (and_one_le_one _) (and_one_le_one _)
      (and_one_le_one _) (and_one_le_one _) (and_one_le_one _) (and_one_le_one _)
      (and_one_le_one _) (and_one_le_one _),
    byteOfBits8_eq _ _ _ _ _ _ _ _ (and_one_le_one _) (and_one_le_one _)
      (and_one_le_one _) (and_one_le_one _) (and_one_le_one _) (and_one_le_one _)
      (and_one_le_one _) (and_one_le_one _),
    byteOfBits8_eq _ _ _ _ _ _ _ _ (and_one_le_one _) (and_one_le_one _)
      (and_one_le_one _) (and_one_le_one _) (and_one_le_one _) (and_one_le_one _)
      (and_one_le_one _) (and_one_le_one _)]
  simp only [bit_extract_div_mod]
  norm_num
  refine ⟨by omega, by omega, by omega⟩

theorem b64_decode_encode_aux : ∀ (k : Nat) (l : List Nat), l.length = 3 * k →
    (∀ x ∈ l, x < 256) → b64decode (b64encode l) = l := by
  intro k
  induction k with
  | zero =>
    intro l hl _
    have hl0 : l = [] := List.length_eq_zero.mp (by omega)
    subst hl0
    rfl
  | succ n ih =>
    intro l hl hb
    rcases l with _ | ⟨a, l⟩; · simp at hl
    rcases l with _ | ⟨b, l⟩; · simp at hl; omega
    rcases l with _ | ⟨c, rest⟩; · simp at hl; omega
    have hr : rest.length = 3 * n := by simp at hl; omega
    have hbr : ∀ x ∈ rest, x < 256 := fun x hx => hb x (by simp [hx])
    have hsplit : bytesToBits (a :: b :: c :: rest) =
        (bits_from_byte a ++ bits_from_byte b ++ bits_from_byte c) ++
          bytesToBits rest := by
      simp [bytesToBits, List.append_assoc]
    have hrest := ih rest hr hbr
    unfold b64encode b64decode at hrest ⊢
    rw [hsplit, sixChunks_append 4 _ _ (by simp [bits_from_byte_length]),
      List.map_append]
    have hfm : ∀ A B : List Nat,
        (A ++ B).flatMap base64url_bits =
          A.flatMap base64url_bits ++ B.flatMap base64url_bits := by
      intro A B; simp
    rw [hfm]
    have hlenA : (((sixChunks (bits_from_byte a ++ bits_from_byte b ++
        bits_from_byte c)).map b64CharCode).flatMap base64url_bits).length = 24 := by
      simp [bits_from_byte, sixChunks, base64url_bits_length]
    rw [packBitsFull_append 3 _ _ hlenA]
    rw [block3_roundtrip a b c (hb a (by simp)) (hb b (by simp)) (hb c (by simp))]
    rw [hrest]
    simp

/-- The encode/decode round trip on byte lists whose length is a multiple of
3 (such as the 36-byte friendly address). -/
theorem b64_decode_encode (l : List Nat) (hm : l.length % 3 = 0)
    (hb : ∀ x ∈ l, x < 256) : b64decode (b64encode l) = l :=
  b64_decode_encode_aux (l.length / 3) l (by omega) hb

/-! ## SHA-256 output shape -/

theorem sha256_compress_length (blk : List Nat) (st : Option (List Nat)) :
    (sha256_compress_block blk st).length = 8 := rfl

theorem sha256_fold_length : ∀ (n : Nat) (l : List Nat), l.length ≤ n →
    ∀ st : List Nat, st.length = 8 → (sha256_fold st l).length = 8 := by
  intro n
  induction n with
  | zero =>
    intro l hl st hst
    have hl0 : l = [] := List.length_eq_zero.mp (by omega)
    subst hl0
    rw [sha256_fold]
    exact hst
  | succ m ih =>
    intro l hl st hst
    cases l with
    | nil => rw [sha256_fold]; exact hst
    | cons b rest =>
      rw [sha256_fold]
      have hlen : ((b :: rest).drop 64).length ≤ m := by
        simp only [List.length_drop, List.length_cons]
        simp only [List.length_cons] at hl
        omega
      exact ih _ hlen _ (sha256_compress_length _ _)

theorem flatMap_word_bytes_length (l : List Nat) :
    (l.flatMap (fun w =>
      [(w >>> 24) &&& 255, (w >>> 16) &&& 255, (w >>> 8) &&& 255, w &&& 255])).length =
      4 * l.length := by
  induction l with
  | nil => simp
  | cons x t ih => simp only [List.flatMap_cons, List.length_append, ih,
      List.length_cons]; simp; ring

theorem sha256_length (msg : List Nat) : (sha256 msg).length = 32 := by
  unfold sha256
  rw [flatMap_word_bytes_length]
  rw [sha256_fold_length (sha256_pad msg).length _ (Nat.le_refl _) sha256_iv rfl]

theorem sha256_mem_lt (msg : List Nat) : ∀ x ∈ sha256 msg, x < 256 := by
  intro x hx
  unfold sha256 at hx
  rw [List.mem_flatMap] at hx
  obtain ⟨w, -, hw⟩ := hx
  simp only [List.mem_cons, List.not_mem_nil, or_false] at hw
  rcases hw with h | h | h | h <;> subst h <;>
    exact lt_of_le_of_lt Nat.and_le_right (by norm_num)

/-! ## Indexed list access helpers -/

theorem getD_append_lt (a b : List Nat) (i : Nat) (h : i < a.length) :
    (a ++ b).getD i 0 = a.getD i 0 := List.getD_append a b 0 i h

theorem getD_append_ge (a b : List Nat) (i : Nat) (h : a.length ≤ i) :
    (a ++ b).getD i 0 = b.getD (i - a.length) 0 := by
  rw [List.getD_eq_getElem?_getD, List.getElem?_append_right h,
    ← List.getD_eq_getElem?_getD]

theorem getD_mem_of_lt (l : List Nat) (n d : Nat) (h : n < l.length) :
    l.getD n d ∈ l := by
  rw [List.getD_eq_getElem?_getD, List.getElem?_eq_getElem h]
  exact List.getElem_mem h

theorem getD_map_variants (l : List Nat) (f : Nat → List (List Nat)) (i : Nat)
    (h : i < l.length) : (l.map f).getD i [] = f (l.getD i 0) := by
  rw [List.getD_eq_getElem?_getD, List.getElem?_map, List.getD_eq_getElem?_getD,
    List.getElem?_eq_getElem h]
  simp

theorem agree_all_iff (v pb : List Nat) (base : Nat) :
    ((List.range 6).all (fun b =>
        if base + b < 16 then decide (v.getD b 0 = pb.getD (base + b) 0)
        else true) = true) ↔
      (∀ b < 6, base + b < 16 → v.getD b 0 = pb.getD (base + b) 0) := by
  simp only [List.all_eq_true, List.mem_range]
  constructor
  · intro h b hb hlt
    have hh := h b hb
    rw [if_pos hlt] at hh
    exact of_decide_eq_true hh
  · intro h b hb
    by_cases hlt : base + b < 16
    · rw [if_pos hlt]; exact decide_eq_true (h b hb hlt)
    · rw [if_neg hlt]

theorem filter_variants_ne_nil (variants : List (List Nat)) (pb : List Nat)
    (base : Nat) :
    filter_variants variants pb base ≠ [] ↔
      ∃ v ∈ variants, ∀ b < 6, base + b < 16 →
        v.getD b 0 = pb.getD (base + b) 0 := by
  unfold filter_variants
  rw [ne_eq, List.filter_eq_nil_iff]
  push_neg
  constructor
  · rintro ⟨v, hv, hp⟩
    exact ⟨v, hv, (agree_all_iff v pb base).mp (by simpa using hp)⟩
  · rintro ⟨v, hv, hp⟩
    exact ⟨v, hv, by simpa using (agree_all_iff v pb base).mpr hp⟩

theorem filterChars_isSome (pb : List Nat) :
    ∀ (opts : List (List (List Nat))) (off : Nat),
      (filterChars opts pb off).isSome = true ↔
        ∀ i < opts.length, filter_variants (opts.getD i []) pb (off + 6 * i) ≠ [] := by
  intro opts
  induction opts with
  | nil => intro off; simp [filterChars]
  | cons v rest ih =>
    intro off
    simp only [filterChars]
    by_cases hv : filter_variants v pb off = []
    · simp only [hv, if_true, Option.isSome_none, List.length_cons]
      constructor
      · intro h; exact absurd h Bool.false_ne_true
      · intro h
        exfalso
        exact (h 0 (by omega)) (by simpa using hv)
    · simp only [hv, if_false, Option.isSome_map', List.length_cons]
      rw [ih (off + 6)]
      constructor
      · intro h i hi
        cases i with
        | zero => simpa using hv
        | succ j =>
          have := h j (by omega)
          simpa [Nat.add_assoc, Nat.mul_succ, Nat.mul_comm, Nat.add_comm,
            Nat.add_left_comm] using this
      · intro h j hj
        have := h (j + 1) (by omega)
        simpa [Nat.add_assoc, Nat.mul_succ, Nat.mul_comm, Nat.add_comm,
          Nat.add_left_comm] using this

theorem alignment_ok_iff_filterChars (start : List Nat) (cs : Bool)
    (pb : List Nat) (d : Nat) :
    alignment_ok start cs pb d ↔
      (filterChars (start.map (fun c => char_bit_variants c cs)) pb
        (6 * d)).isSome = true := by
  rw [filterChars_isSome]
  simp only [List.length_map]
  unfold alignment_ok
  constructor
  · intro h i hi
    rw [getD_map_variants start _ i hi, filter_variants_ne_nil]
    obtain ⟨v, hv, hagree⟩ := h i hi
    refine ⟨v, hv, fun b hb hlt => ?_⟩
    have := hagree b hb (by omega)
    convert this using 3 <;> omega
  · intro h i hi
    have hh := h i hi
    rw [getD_map_variants start _ i hi, filter_variants_ne_nil] at hh
    obtain ⟨v, hv, hagree⟩ := hh
    refine ⟨v, hv, fun b hb hlt => ?_⟩
    have := hagree b hb (by omega)
    convert this using 3 <;> omega

theorem alignFrom_spec (opts : List (List (List Nat))) (pb : List Nat) :
    ∀ (n : Nat) (d : Nat),
      ((∃ k < n, (filterChars opts pb (6 * (d + k))).isSome = true) →
        (filterChars opts pb (6 * (alignFrom opts pb d n).1)).isSome = true ∧
        d ≤ (alignFrom opts pb d n).1 ∧
        ∀ e, d ≤ e → e < (alignFrom opts pb d n).1 →
          (filterChars opts pb (6 * e)).isSome = false) ∧
      ((∀ k < n, (filterChars opts pb (6 * (d + k))).isSome = false) →
        alignFrom opts pb d n = ((16 + 5) / 6, opts)) := by
  intro n
  induction n with
  | zero =>
    intro d
    constructor
    · rintro ⟨k, hk, -⟩; omega
    · intro _; rfl
  | succ m ih =>
    intro d
    constructor
    · rintro ⟨k, hk, hks⟩
      cases hfc : filterChars opts pb (6 * d) with
      | some f =>
        simp only [alignFrom, hfc]
        exact ⟨by simp, Nat.le_refl d, fun e h1 h2 => by omega⟩
      | none =>
        have hex : ∃ k < m, (filterChars opts pb (6 * (d + 1 + k))).isSome = true := by
          cases k with
          | zero =>
            rw [Nat.add_zero, hfc] at hks
            exact absurd hks (by simp)
          | succ j =>
            refine ⟨j, by omega, ?_⟩
            have : d + 1 + j = d + (j + 1) := by omega
            rw [this]
            exact hks
        obtain ⟨h1, h2, h3⟩ := (ih (d + 1)).1 hex
        simp only [alignFrom, hfc]
        refine ⟨h1, by omega, ?_⟩
        intro e he1 he2
        rcases Nat.eq_or_lt_of_le he1 with heq | hlt
        · rw [← heq, hfc]; rfl
        · exact h3 e (by omega) he2
    · intro hall
      cases hfc : filterChars opts pb (6 * d) with
      | some f =>
        exfalso
        have := hall 0 (by omega)
        rw [Nat.add_zero, hfc] at this
        simp at this
      | none =>
        simp only [alignFrom, hfc]
        refine (ih (d + 1)).2 (fun k hk => ?_)
        have := hall (k + 1) (by omega)
        have heq : d + (k + 1) = d + 1 + k := by omega
        rw [heq] at this
        exact this

/-- C2 (amended): for every non-empty start pattern that fits inside the
288-bit address, `choose_start_alignment` returns the smallest digit offset
`d ≤ max_digit_offset = (288 − 6·len)/6` such that every pattern digit has an
allowed 6-bit variant agreeing with the fixed flag/workchain bits on every
overlapping position, and returns offset `3` as a fallback when no offset in
that bounded range works.  (The spec's range `0..8` overstates the search:
offsets are only tried while the pattern still fits, cf. the
counterexample.) -/
theorem choose_start_alignment_minimal (start : List Nat) (cs : Bool)
    (pb : List Nat) (hne : start ≠ []) (hfit : 6 * start.length ≤ 288) :
    ((∃ d ≤ (288 - 6 * start.length) / 6, alignment_ok start cs pb d) →
      alignment_ok start cs pb (choose_start_alignment start cs pb).1 ∧
      ∀ e < (choose_start_alignment start cs pb).1, ¬ alignment_ok start cs pb e) ∧
    ((∀ d ≤ (288 - 6 * start.length) / 6, ¬ alignment_ok start cs pb d) →
      (choose_start_alignment start cs pb).1 = 3) := by
  have hcs : choose_start_alignment start cs pb =
      alignFrom (start.map (fun c => char_bit_variants c cs)) pb 0
        ((288 - 6 * start.length) / 6 + 1) := by
    simp only [choose_start_alignment]
    rw [if_neg hne]
    rw [if_neg (by omega : ¬ (288 < 6 * start.length))]
  have hspec := alignFrom_spec (start.map (fun c => char_bit_variants c cs)) pb
    ((288 - 6 * start.length) / 6 + 1) 0
  constructor
  · rintro ⟨d, hd, hok⟩
    rw [alignment_ok_iff_filterChars] at hok
    obtain ⟨h1, -, h3⟩ := hspec.1 ⟨d, by omega, by rw [Nat.zero_add]; exact hok⟩
    rw [hcs]
    refine ⟨(alignment_ok_iff_filterChars start cs pb _).mpr h1, ?_⟩
    intro e he hoke
    rw [alignment_ok_iff_filterChars] at hoke
    rw [h3 e (by omega) he] at hoke
    exact Bool.false_ne_true hoke
  · intro hall
    rw [hcs]
    have := hspec.2 (fun k hk => by
      have hnot := hall k (by omega)
      rw [alignment_ok_iff_filterChars] at hnot
      rw [Nat.zero_add]
      cases hb : (filterChars (start.map (fun c => char_bit_variants c cs)) pb
          (6 * k)).isSome
      · rfl
      · exact absurd hb hnot)
    rw [this]

/-- C2 (witness): the amended minimality statement at the `kQBE` scenario
(the returned offset, 3, satisfies the agreement property and offsets 0..2
do not). -/
theorem choose_start_alignment_minimal_witness :
    alignment_ok (pyStr "kQBE") true (prefix_bits_of cli7)
      (choose_start_alignment (pyStr "kQBE") true (prefix_bits_of cli7)).1 ∧
    ∀ e < (choose_start_alignment (pyStr "kQBE") true (prefix_bits_of cli7)).1,
      ¬ alignment_ok (pyStr "kQBE") true (prefix_bits_of cli7) e :=
  (choose_start_alignment_minimal (pyStr "kQBE") true (prefix_bits_of cli7)
      (by decide) (by decide)).1
    ⟨3, by decide, by unfold alignment_ok; decide⟩

/-! ## C8: configuration-error exit codes -/

/-- C8 (counterexample): a missing `--start`/`--end` pair does not exit with
code 2 and a stderr message — `parse_cli` prints the message to stdout and
exits with code 0. -/
theorem parse_cli_missing_pair_exit0 :
    parse_cli argsMissing = .exit 0 none ∧ (0 : Nat) ≠ 2 := by decide

/-- C8 (amended): every configuration error that `parse_cli` itself detects
terminates the process with exit code 0 (missing `--start`/`--end` pair, a
usage message on stdout) or exit code 1 (owner that is not base64url or
decodes to fewer than 34 bytes, non-base64url start/end pattern, each with a
one-line stderr message) — never with exit code 2, which is reserved for
`argparse`-level argument-syntax errors. -/
theorem parse_cli_error_codes (args : ParsedArgs) (c : Nat) (m : Option (List Nat))
    (h : parse_cli args = .exit c m) :
    (c = 0 ∧ m = none ∧ ¬ opt_truthy args.start ∧ ¬ opt_truthy args.end_) ∨
    (c = 1 ∧ ∃ s, m = some s) := by
  unfold parse_cli at h
  split at h
  · rename_i hcond
    cases h
    exact Or.inl ⟨rfl, rfl, by simpa using hcond.1, by simpa using hcond.2⟩
  · split at h
    · cases h; exact Or.inr ⟨rfl, _, rfl⟩
    · split at h
      · cases h; exact Or.inr ⟨rfl, _, rfl⟩
      · split at h
        · cases h; exact Or.inr ⟨rfl, _, rfl⟩
        · split at h
          · cases h; exact Or.inr ⟨rfl, _, rfl⟩
          · split at h
            · cases h; exact Or.inr ⟨rfl, _, rfl⟩
            · cases h

/-- C8 (witness): the amended classification applied to the concrete
missing-pattern invocation. -/
theorem parse_cli_error_codes_witness :
    ((0 : Nat) = 0 ∧ (none : Option (List Nat)) = none ∧
      ¬ opt_truthy argsMissing.start ∧ ¬ opt_truthy argsMissing.end_) ∨
    ((0 : Nat) = 1 ∧ ∃ s, (none : Option (List Nat)) = some s) :=
  parse_cli_error_codes argsMissing 0 none (by decide)


/-! ## C6: emitted-record invariant -/

/-- C6: for every hit that `process_hit` accepts (returns a record), the
36-byte representation it rebuilds and persists satisfies
`crc16(repr[0..34]) = (repr[34] <<< 8) ||| repr[35]`, and the `address`
string written to the record is the base64url encoding of exactly those 36
bytes, so decoding it reproduces them byte for byte.  The hypotheses state
that the config carries the CRC table `build_kernel_config` always installs
and byte-sized flag/mask fields (which every built config has, and which the
source's `bytearray` assignments require at runtime). -/
theorem process_hit_record_invariant
    (cfg : KernelConfig) (cli : CliConfig) (owner_raw : List Nat) (sdb : Nat)
    (base_salt : List Nat) (iter_idx idx vi : Nat) (e : HitEntry)
    (hcrc : cfg.crc16_tab = crc16_table)
    (hhi : cfg.flags_hi < 256) (hlo : cfg.flags_lo < 256)
    (hfm : cfg.free_hash_mask < 256)
    (h : process_hit cfg cli owner_raw sdb base_salt iter_idx idx vi = some e) :
    crc16 ((hit_repr cfg owner_raw base_salt iter_idx idx vi).take 34) crc16_table =
      (((hit_repr cfg owner_raw base_salt iter_idx idx vi).getD 34 0) <<< 8) |||
        ((hit_repr cfg owner_raw base_salt iter_idx idx vi).getD 35 0) ∧
    e.address = b64encode (hit_repr cfg owner_raw base_salt iter_idx idx vi) ∧
    b64decode e.address = hit_repr cfg owner_raw base_salt iter_idx idx vi := by
  set mh := sha256 (cfg.stateinit_variants.getD vi [] ++
      sha256 (build_code_repr owner_raw (xor_salt base_salt iter_idx idx))) with hmh
  set h0 := (mh.getD 0 0 &&& (255 ^^^ (cfg.free_hash_mask &&& 255))) |||
      (cfg.free_hash_val &&& cfg.free_hash_mask) with hh0
  set F34 := cfg.flags_hi :: cfg.flags_lo :: h0 :: ((mh.drop 1).take 31) with hF
  have hml : mh.length = 32 := by rw [hmh]; exact sha256_length _
  have hRdef : hit_repr cfg owner_raw base_salt iter_idx idx vi =
      F34 ++ [(crc16 F34 cfg.crc16_tab >>> 8) &&& 255,
              crc16 F34 cfg.crc16_tab &&& 255] := rfl
  have hlenF : F34.length = 34 := by
    rw [hF]
    simp only [List.length_cons, List.length_take, List.length_drop, hml]
    omega
  have he : e.address =
      b64encode (hit_repr cfg owner_raw base_salt iter_idx idx vi) := by
    simp only [process_hit] at h
    repeat' split at h
    all_goals cases h
    all_goals rfl
  have hlen36 : (hit_repr cfg owner_raw base_salt iter_idx idx vi).length = 36 := by
    rw [hRdef]
    simp [hlenF]
  have h256 : (256 : Nat) = 2 ^ 8 := by norm_num
  have hmem : ∀ x ∈ hit_repr cfg owner_raw base_salt iter_idx idx vi, x < 256 := by
    rw [hRdef]
    intro x hx
    rw [List.mem_append] at hx
    rcases hx with hx | hx
    · rw [hF] at hx
      simp only [List.mem_cons] at hx
      rcases hx with rfl | rfl | rfl | hx
      · exact hhi
      · exact hlo
      · have hmh0 : mh.getD 0 0 < 256 := by
          have hmem0 : mh.getD 0 0 ∈ mh := getD_mem_of_lt mh 0 0 (by omega)
          rw [hmh] at hmem0
          exact sha256_mem_lt _ _ hmem0
        have h1 : mh.getD 0 0 &&& (255 ^^^ (cfg.free_hash_mask &&& 255)) < 256 :=
          lt_of_le_of_lt Nat.and_le_left hmh0
        have h2 : cfg.free_hash_val &&& cfg.free_hash_mask < 256 :=
          lt_of_le_of_lt Nat.and_le_right hfm
        rw [hh0, h256]
        exact Nat.or_lt_two_pow (h256 ▸ h1) (h256 ▸ h2)
      · have hxm : x ∈ mh := List.mem_of_mem_drop (List.mem_of_mem_take hx)
        rw [hmh] at hxm
        exact sha256_mem_lt _ _ hxm
    · simp only [List.mem_cons, List.not_mem_nil, or_false] at hx
      rcases hx with rfl | rfl <;>
        exact lt_of_le_of_lt Nat.and_le_right (by norm_num)
  refine ⟨?_, he, ?_⟩
  · rw [hRdef, hcrc]
    rw [List.take_left' hlenF]
    have hg34 : (F34 ++ [(crc16 F34 crc16_table >>> 8) &&& 255,
        crc16 F34 crc16_table &&& 255]).getD 34 0 =
        (crc16 F34 crc16_table >>> 8) &&& 255 := by
      rw [getD_append_ge _ _ 34 (by omega), hlenF]
      rfl
    have hg35 : (F34 ++ [(crc16 F34 crc16_table >>> 8) &&& 255,
        crc16 F34 crc16_table &&& 255]).getD 35 0 =
        crc16 F34 crc16_table &&& 255 := by
      rw [getD_append_ge _ _ 35 (by omega), hlenF]
      rfl
    rw [hg34, hg35]
    exact (crc_bytes_combine _ (crc16_lt F34 crc16_table)).symm
  · rw [he]
    exact b64_decode_encode _ (by rw [hlen36]) hmem

/-- C6 (witness): the record invariant at the concrete patternless hit
`(zero salt, 0, 0, 0)` accepted by `process_hit`. -/
theorem process_hit_record_invariant_witness :
    crc16 ((hit_repr cfgW6 owner7 (List.replicate 16 0) 0 0 0).take 34) crc16_table =
      (((hit_repr cfgW6 owner7 (List.replicate 16 0) 0 0 0).getD 34 0) <<< 8) |||
        ((hit_repr cfgW6 owner7 (List.replicate 16 0) 0 0 0).getD 35 0) ∧
    entryW6.address = b64encode (hit_repr cfgW6 owner7 (List.replicate 16 0) 0 0 0) ∧
    b64decode entryW6.address = hit_repr cfgW6 owner7 (List.replicate 16 0) 0 0 0 :=
  process_hit_record_invariant cfgW6 cliW6 owner7 0 (List.replicate 16 0) 0 0 0
    entryW6 (by rfl) (by decide) (by decide) (by decide) (by rfl)

/-! ## C1 groundwork: characters, 6-bit values, digit extraction -/

theorem base64url_value_lt (c : Nat) (h : is_b64_char c = true) :
    base64url_value c < 64 := by
  simp only [is_b64_char, Bool.or_eq_true, Bool.and_eq_true, decide_eq_true_eq] at h
  unfold base64url_value
  split_ifs <;> omega

theorem b64CharCode_value (c : Nat) (h : is_b64_char c = true) :
    b64CharCode (base64url_value c) = c := by
  simp only [is_b64_char, Bool.or_eq_true, Bool.and_eq_true, decide_eq_true_eq] at h
  unfold base64url_value b64CharCode
  split_ifs <;> omega

theorem is_b64_char_variants (c : Nat) (cs : Bool) (h : is_b64_char c = true) :
    ∀ x ∈ char_variants c cs, is_b64_char x = true := by
  intro x hx
  simp only [is_b64_char, Bool.or_eq_true, Bool.and_eq_true, decide_eq_true_eq] at h ⊢
  unfold char_variants at hx
  split_ifs at hx with h1 h2
  · simp only [List.mem_cons, List.not_mem_nil, or_false] at hx
    subst hx; omega
  · simp only [List.mem_cons, List.not_mem_nil, or_false] at hx
    unfold py_lower py_upper at hx
    rcases hx with rfl | rfl <;> split_ifs <;> omega
  · simp only [List.mem_cons, List.not_mem_nil, or_false] at hx
    subst hx; omega

theorem char_variants_ne_nil (c : Nat) (cs : Bool) : char_variants c cs ≠ [] := by
  unfold char_variants
  split_ifs <;> simp

theorem char_bit_variants_ne_nil (c : Nat) (cs : Bool) :
    char_bit_variants c cs ≠ [] := by
  unfold char_bit_variants
  simp [char_variants_ne_nil]

theorem sixVal_list (x0 x1 x2 x3 x4 x5 : Nat) :
    sixVal [x0, x1, x2, x3, x4, x5] =
      32 * x0 + 16 * x1 + 8 * x2 + 4 * x3 + 2 * x4 + x5 := by
  have hr : (List.range 6) = [0, 1, 2, 3, 4, 5] := by decide
  simp only [sixVal, hr, List.foldl]
  simp only [List.getD_cons_zero, List.getD_cons_succ]
  simp only [Nat.shiftLeft_eq]
  norm_num
  ring

theorem base64url_bits_list (c : Nat) :
    base64url_bits c =
      [(base64url_value c >>> 5) &&& 1, (base64url_value c >>> 4) &&& 1,
       (base64url_value c >>> 3) &&& 1, (base64url_value c >>> 2) &&& 1,
       (base64url_value c >>> 1) &&& 1, (base64url_value c >>> 0) &&& 1] := by
  have hr : (List.range 6) = [0, 1, 2, 3, 4, 5] := by decide
  simp [base64url_bits, hr]

theorem sixVal_base64url_bits (c : Nat) (h : is_b64_char c = true) :
    sixVal (base64url_bits c) = base64url_value c := by
  rw [base64url_bits_list, sixVal_list]
  simp only [bit_extract_div_mod]
  have hv := base64url_value_lt c h
  norm_num
  omega

theorem sixVal_inj_bits (v w : List Nat) (hv : v.length = 6) (hw : w.length = 6)
    (hvb : ∀ x ∈ v, x ≤ 1) (hwb : ∀ x ∈ w, x ≤ 1)
    (h : sixVal v = sixVal w) : v = w := by
  rcases v with _ | ⟨v0, v⟩; · simp at hv
  rcases v with _ | ⟨v1, v⟩; · simp at hv
  rcases v with _ | ⟨v2, v⟩; · simp at hv
  rcases v with _ | ⟨v3, v⟩; · simp at hv
  rcases v with _ | ⟨v4, v⟩; · simp at hv
  rcases v with _ | ⟨v5, v⟩; · simp at hv
  rcases v with _ | ⟨v6, v⟩; swap; · simp at hv
  rcases w with _ | ⟨w0, w⟩; · simp at hw
  rcases w with _ | ⟨w1, w⟩; · simp at hw
  rcases w with _ | ⟨w2, w⟩; · simp at hw
  rcases w with _ | ⟨w3, w⟩; · simp at hw
  rcases w with _ | ⟨w4, w⟩; · simp at hw
  rcases w with _ | ⟨w5, w⟩; · simp at hw
  rcases w with _ | ⟨w6, w⟩; swap; · simp at hw
  rw [sixVal_list, sixVal_list] at h
  have b0 : v0 ≤ 1 := hvb v0 (by simp)
  have b1 : v1 ≤ 1 := hvb v1 (by simp)
  have b2 : v2 ≤ 1 := hvb v2 (by simp)
  have b3 : v3 ≤ 1 := hvb v3 (by simp)
  have b4 : v4 ≤ 1 := hvb v4 (by simp)
  have b5 : v5 ≤ 1 := hvb v5 (by simp)
  have c0 : w0 ≤ 1 := hwb w0 (by simp)
  have c1 : w1 ≤ 1 := hwb w1 (by simp)
  have c2 : w2 ≤ 1 := hwb w2 (by simp)
  have c3 : w3 ≤ 1 := hwb w3 (by simp)
  have c4 : w4 ≤ 1 := hwb w4 (by simp)
  have c5 : w5 ≤ 1 := hwb w5 (by simp)
  simp only [List.cons.injEq, and_true]
  refine ⟨by omega, by omega, by omega, by omega, by omega, by omega⟩

theorem base64url_bits_bounds (c : Nat) : ∀ x ∈ base64url_bits c, x ≤ 1 := by
  intro x hx
  rw [base64url_bits_list] at hx
  simp only [List.mem_cons, List.not_mem_nil, or_false] at hx
  rcases hx with rfl | rfl | rfl | rfl | rfl | rfl <;> exact Nat.and_le_right

theorem sixChunks_nil : sixChunks [] = [] := rfl

theorem sixChunks_length : ∀ (n : Nat) (l : List Nat), l.length ≤ n →
    (sixChunks l).length = l.length / 6 := by
  intro n
  induction n with
  | zero =>
    intro l hl
    have hl0 : l = [] := List.length_eq_zero.mp (by omega)
    subst hl0
    rfl
  | succ m ih =>
    intro l hl
    rcases l with _ | ⟨x0, l⟩; · simp [sixChunks]
    rcases l with _ | ⟨x1, l⟩; · simp [sixChunks]
    rcases l with _ | ⟨x2, l⟩; · simp [sixChunks]
    rcases l with _ | ⟨x3, l⟩; · simp [sixChunks]
    rcases l with _ | ⟨x4, l⟩; · simp [sixChunks]
    rcases l with _ | ⟨x5, rest⟩; · simp [sixChunks]
    simp only [sixChunks, List.length_cons]
    rw [ih rest (by simp at hl; omega)]
    omega

theorem sixChunks_getD : ∀ (D : Nat) (l : List Nat), 6 * D + 6 ≤ l.length →
    (sixChunks l).getD D 0 =
      byteOfBits [l.getD (6 * D) 0, l.getD (6 * D + 1) 0, l.getD (6 * D + 2) 0,
        l.getD (6 * D + 3) 0, l.getD (6 * D + 4) 0, l.getD (6 * D + 5) 0] := by
  intro D
  induction D with
  | zero =>
    intro l hl
    rcases l with _ | ⟨x0, l⟩; · simp at hl
    rcases l with _ | ⟨x1, l⟩; · simp at hl
    rcases l with _ | ⟨x2, l⟩; · simp at hl
    rcases l with _ | ⟨x3, l⟩; · simp at hl
    rcases l with _ | ⟨x4, l⟩; · simp at hl
    rcases l with _ | ⟨x5, rest⟩; · simp at hl
    simp [sixChunks]
  | succ n ih =>
    intro l hl
    rcases l with _ | ⟨x0, l⟩; · simp at hl
    rcases l with _ | ⟨x1, l⟩; · simp at hl
    rcases l with _ | ⟨x2, l⟩; · simp at hl
    rcases l with _ | ⟨x3, l⟩; · simp at hl
    rcases l with _ | ⟨x4, l⟩; · simp at hl
    rcases l with _ | ⟨x5, rest⟩; · simp at hl
    have hchunk : sixChunks (x0 :: x1 :: x2 :: x3 :: x4 :: x5 :: rest) =
        byteOfBits [x0, x1, x2, x3, x4, x5] :: sixChunks rest := rfl
    rw [hchunk, List.getD_cons_succ]
    have hc : ∀ (t : List Nat) (j : Nat),
        (x0 :: x1 :: x2 :: x3 :: x4 :: x5 :: t).getD (j + 6) 0 = t.getD j 0 := by
      intro t j
      show (x0 :: x1 :: x2 :: x3 :: x4 :: x5 :: t).getD (j + 5 + 1) 0 = t.getD j 0
      rw [List.getD_cons_succ]
      show (x1 :: x2 :: x3 :: x4 :: x5 :: t).getD (j + 4 + 1) 0 = t.getD j 0
      rw [List.getD_cons_succ]
      show (x2 :: x3 :: x4 :: x5 :: t).getD (j + 3 + 1) 0 = t.getD j 0
      rw [List.getD_cons_succ]
      show (x3 :: x4 :: x5 :: t).getD (j + 2 + 1) 0 = t.getD j 0
      rw [List.getD_cons_succ]
      show (x4 :: x5 :: t).getD (j + 1 + 1) 0 = t.getD j 0
      rw [List.getD_cons_succ]
      show (x5 :: t).getD (j + 0 + 1) 0 = t.getD j 0
      rw [List.getD_cons_succ]
    have e0 : 6 * (n + 1) = 6 * n + 6 := by ring
    rw [e0]
    have f1 : 6 * n + 6 + 1 = (6 * n + 1) + 6 := by ring
    have f2 : 6 * n + 6 + 2 = (6 * n + 2) + 6 := by ring
    have f3 : 6 * n + 6 + 3 = (6 * n + 3) + 6 := by ring
    have f4 : 6 * n + 6 + 4 = (6 * n + 4) + 6 := by ring
    have f5 : 6 * n + 6 + 5 = (6 * n + 5) + 6 := by ring
    rw [f1, f2, f3, f4, f5, hc, hc, hc, hc, hc, hc]
    exact ih rest (by simp at hl; omega)

theorem bytesToBits_getD : ∀ (l : List Nat) (q : Nat), q < 8 * l.length →
    (bytesToBits l).getD q 0 = addr_bit l q := by
  intro l
  induction l with
  | nil => intro q hq; simp at hq
  | cons b t ih =>
    intro q hq
    have hbb : bytesToBits (b :: t) = bits_from_byte b ++ bytesToBits t := by
      simp [bytesToBits]
    rw [hbb]
    by_cases h8 : q < 8
    · rw [getD_append_lt _ _ q (by rw [bits_from_byte_length]; omega)]
      unfold addr_bit
      have hq8 : q / 8 = 0 := by omega
      have hm8 : q % 8 = q := by omega
      rw [hq8, hm8, List.getD_cons_zero]
      interval_cases q <;> simp [bits_from_byte]
    · rw [getD_append_ge _ _ q (by rw [bits_from_byte_length]; omega)]
      rw [bits_from_byte_length]
      rw [ih (q - 8) (by simp at hq; omega)]
      unfold addr_bit
      have hd : q / 8 = (q - 8) / 8 + 1 := by omega
      have hm : (q - 8) % 8 = q % 8 := by omega
      rw [hd, List.getD_cons_succ, hm]

theorem digit6_eq_byteOfBits (l : List Nat) (D : Nat) :
    byteOfBits [addr_bit l (6 * D), addr_bit l (6 * D + 1), addr_bit l (6 * D + 2),
      addr_bit l (6 * D + 3), addr_bit l (6 * D + 4), addr_bit l (6 * D + 5)] =
      digit6 l D := by
  rw [byteOfBits6_eq _ _ _ _ _ _ (addr_bit_le_one l _) (addr_bit_le_one l _)
    (addr_bit_le_one l _) (addr_bit_le_one l _) (addr_bit_le_one l _)
    (addr_bit_le_one l _)]
  unfold digit6
  ring

theorem b64encode_getD (l : List Nat) (D : Nat) (h : 6 * D + 6 ≤ 8 * l.length) :
    (b64encode l).getD D 0 = b64CharCode (digit6 l D) := by
  unfold b64encode
  have hblen : (bytesToBits l).length = 8 * l.length := bytesToBits_length l
  have hD : D < (sixChunks (bytesToBits l)).length := by
    rw [sixChunks_length (bytesToBits l).length _ (Nat.le_refl _), hblen]
    omega
  rw [List.getD_eq_getElem?_getD, List.getElem?_map, List.getElem?_eq_getElem hD]
  simp only [Option.map_some', Option.getD_some]
  have hget : (sixChunks (bytesToBits l))[D] =
      (sixChunks (bytesToBits l)).getD D 0 := by
    rw [List.getD_eq_getElem?_getD, List.getElem?_eq_getElem hD]
    rfl
  rw [hget, sixChunks_getD D _ (by rw [hblen]; omega)]
  rw [bytesToBits_getD l _ (by omega), bytesToBits_getD l _ (by omega),
    bytesToBits_getD l _ (by omega), bytesToBits_getD l _ (by omega),
    bytesToBits_getD l _ (by omega), bytesToBits_getD l _ (by omega)]
  rw [digit6_eq_byteOfBits]

/-! ## C1 groundwork: single mask-state updates at the bit level -/

theorem testBit_one_iff (j : Nat) : (1 : Nat).testBit j = decide (j = 0) := by
  rw [Nat.testBit_to_div_mod, decide_eq_decide]
  cases j with
  | zero => norm_num
  | succ m =>
    have h2 : 1 < 2 ^ (m + 1) := Nat.one_lt_two_pow (by omega)
    rw [Nat.div_eq_of_lt h2]
    norm_num

theorem testBit_or_shl (x off k : Nat) :
    (x ||| (1 <<< off)).testBit k = (x.testBit k || decide (k = off)) := by
  rw [Nat.testBit_or, Nat.testBit_shiftLeft, testBit_one_iff]
  congr 1
  by_cases h : off ≤ k
  · by_cases h2 : k = off
    · subst h2
      simp [Nat.sub_self]
    · have hno : ¬ (k - off = 0) := by omega
      simp [h, hno, h2]
  · have h2 : ¬ (k = off) := by omega
    simp [h, h2]

theorem getD_set_self (l : List Nat) (i v : Nat) (h : i < l.length) :
    (l.set i v).getD i 0 = v := by
  simp [List.getD_eq_getElem?_getD, List.getElem?_set_self, h]

theorem getD_set_ne (l : List Nat) (i j v : Nat) (h : i ≠ j) :
    (l.set i v).getD j 0 = l.getD j 0 := by
  simp [List.getD_eq_getElem?_getD, List.getElem?_set_ne h]

theorem mget_replicate_zero (n q : Nat) : mget (List.replicate n 0) q = false := by
  unfold mget
  have hz : (List.replicate n (0 : Nat)).getD (q / 8) 0 = 0 := by
    simp only [List.getD_eq_getElem?_getD, List.getElem?_replicate]
    split <;> rfl
  rw [hz]
  exact Nat.zero_testBit _

theorem set_mask_bit_mask_at (mask val : List Nat) (bi bv : Nat)
    (hlen : bi / 8 < mask.length) :
    mget (set_mask_bit mask val bi bv).1 bi = true := by
  unfold set_mask_bit mget
  simp only
  rw [getD_set_self _ _ _ hlen, testBit_or_shl]
  simp

theorem set_mask_bit_mask_frame (mask val : List Nat) (bi bv q : Nat)
    (hne : bi ≠ q) :
    mget (set_mask_bit mask val bi bv).1 q = mget mask q := by
  unfold set_mask_bit mget
  simp only
  by_cases hbyte : bi / 8 = q / 8
  · by_cases hlen : bi / 8 < mask.length
    · rw [hbyte] at hlen
      rw [hbyte, getD_set_self _ _ _ hlen, testBit_or_shl]
      have hno : ¬ (7 - q % 8 = 7 - bi % 8) := by omega
      simp [hno]
    · rw [List.set_eq_of_length_le (by omega)]
  · rw [getD_set_ne _ _ _ _ hbyte]

theorem set_mask_bit_val_at (mask val : List Nat) (bi bv : Nat)
    (hlen : bi / 8 < val.length) (hfresh : mget val bi = false) :
    mget (set_mask_bit mask val bi bv).2 bi = decide (bv ≠ 0) := by
  unfold set_mask_bit mget
  simp only
  by_cases hbv : bv ≠ 0
  · rw [if_pos hbv, getD_set_self _ _ _ hlen, testBit_or_shl]
    simp [hbv]
  · rw [if_neg hbv]
    unfold mget at hfresh
    simpa [hbv] using hfresh

theorem set_mask_bit_val_frame (mask val : List Nat) (bi bv q : Nat)
    (hne : bi ≠ q) :
    mget (set_mask_bit mask val bi bv).2 q = mget val q := by
  unfold set_mask_bit mget
  simp only
  by_cases hbv : bv ≠ 0
  · rw [if_pos hbv]
    by_cases hbyte : bi / 8 = q / 8
    · by_cases hlen : bi / 8 < val.length
      · rw [hbyte] at hlen
        rw [hbyte, getD_set_self _ _ _ hlen, testBit_or_shl]
        have hno : ¬ (7 - q % 8 = 7 - bi % 8) := by omega
        simp [hno]
      · rw [List.set_eq_of_length_le (by omega)]
    · rw [getD_set_ne _ _ _ _ hbyte]
  · rw [if_neg hbv]

theorem set_mask_bit_mask_length (mask val : List Nat) (bi bv : Nat) :
    (set_mask_bit mask val bi bv).1.length = mask.length := by
  simp [set_mask_bit]

theorem set_mask_bit_val_length (mask val : List Nat) (bi bv : Nat) :
    (set_mask_bit mask val bi bv).2.length = val.length := by
  unfold set_mask_bit
  simp only
  split <;> simp

theorem fbit_or_at (x off q : Nat) (hoff : off = 7 - q % 8) :
    fbit (x ||| (1 <<< off)) q = true := by
  unfold fbit
  rw [testBit_or_shl]
  simp [hoff]

theorem fbit_or_frame (x off q bi : Nat) (hoff : off = 7 - bi % 8)
    (hbi : 16 ≤ bi) (hbi2 : bi < 24) (hq : 16 ≤ q) (hq2 : q < 24) (hne : bi ≠ q) :
    fbit (x ||| (1 <<< off)) q = fbit x q := by
  unfold fbit
  rw [testBit_or_shl]
  have hno : ¬ (7 - q % 8 = off) := by omega
  simp [hno]

theorem ciRecord_prefix_mask (cs : Bool) (variants : List (List Nat))
    (bic bi : Nat) (st : MaskSt) :
    (ciRecord cs variants bic bi st).prefix_mask = st.prefix_mask := by
  simp only [ciRecord]; split_ifs <;> rfl

theorem ciRecord_prefix_val (cs : Bool) (variants : List (List Nat))
    (bic bi : Nat) (st : MaskSt) :
    (ciRecord cs variants bic bi st).prefix_val = st.prefix_val := by
  simp only [ciRecord]; split_ifs <;> rfl

theorem ciRecord_free_mask (cs : Bool) (variants : List (List Nat))
    (bic bi : Nat) (st : MaskSt) :
    (ciRecord cs variants bic bi st).free_mask = st.free_mask := by
  simp only [ciRecord]; split_ifs <;> rfl

theorem ciRecord_free_val (cs : Bool) (variants : List (List Nat))
    (bic bi : Nat) (st : MaskSt) :
    (ciRecord cs variants bic bi st).free_val = st.free_val := by
  simp only [ciRecord]; split_ifs <;> rfl

theorem ciRecord_ci_mono (cs : Bool) (variants : List (List Nat))
    (bic bi q : Nat) (st : MaskSt) (h : q ∈ st.ci_bitpos) :
    q ∈ (ciRecord cs variants bic bi st).ci_bitpos := by
  simp only [ciRecord]; split_ifs <;> simp [h]

theorem ciRecord_records (variants : List (List Nat)) (bi : Nat) (st : MaskSt)
    (h2 : ((variants.map sixVal).dedup).length = 2) :
    bi ∈ (ciRecord false variants 0 bi st).ci_bitpos := by
  simp only [ciRecord]
  rw [if_pos h2]
  simp

theorem startStep_ci_eq (cs : Bool) (scv : List (List (List Nat)))
    (off : Nat) (st : MaskSt) (i : Nat) :
    (startStep cs scv off st i).ci_bitpos =
      (ciRecord cs (scv.getD (i / 6) []) (i % 6) (off + i) st).ci_bitpos := by
  simp only [startStep]
  split_ifs <;> rfl

theorem endStep_ci_eq (cs : Bool) (ecv : List (List (List Nat)))
    (bb : Nat) (st : MaskSt) (i : Nat) :
    (endStep cs ecv bb st i).ci_bitpos =
      (ciRecord cs (ecv.getD (i / 6) []) (i % 6) (bb + i) st).ci_bitpos := by
  simp only [endStep]
  split_ifs <;> rfl

theorem startStep_mask_frame (cs : Bool) (scv : List (List (List Nat)))
    (off : Nat) (st : MaskSt) (i q : Nat) (hne : off + i ≠ q) :
    mget (startStep cs scv off st i).prefix_mask q = mget st.prefix_mask q ∧
    mget (startStep cs scv off st i).prefix_val q = mget st.prefix_val q := by
  simp only [startStep]
  split_ifs <;>
    simp only [ciRecord_prefix_mask, ciRecord_prefix_val] <;>
    first
      | trivial
      | (constructor <;>
          first
            | trivial
            | (rw [set_mask_bit_mask_frame _ _ _ _ _ hne])
            | (rw [set_mask_bit_val_frame _ _ _ _ _ hne]))

theorem startStep_free_frame (cs : Bool) (scv : List (List (List Nat)))
    (off : Nat) (st : MaskSt) (i q : Nat) (hq16 : 16 ≤ q) (hq24 : q < 24)
    (hne : off + i ≠ q) :
    fbit (startStep cs scv off st i).free_mask q = fbit st.free_mask q ∧
    fbit (startStep cs scv off st i).free_val q = fbit st.free_val q := by
  simp only [startStep]
  split_ifs <;>
    simp only [ciRecord_free_mask, ciRecord_free_val] <;>
    first
      | trivial
      | (constructor <;>
          first
            | trivial
            | (rw [fbit_or_frame _ _ _ (off + i) rfl (by omega) (by omega)
                hq16 hq24 hne]))

theorem startStep_free_preserved_of_ge24 (cs : Bool) (scv : List (List (List Nat)))
    (off : Nat) (st : MaskSt) (i : Nat) (h : 24 ≤ off + i) :
    (startStep cs scv off st i).free_mask = st.free_mask ∧
    (startStep cs scv off st i).free_val = st.free_val := by
  simp only [startStep]
  split_ifs <;>
    simp only [ciRecord_free_mask, ciRecord_free_val] <;>
    first
      | trivial
      | omega
      | (exact ⟨rfl, rfl⟩)

theorem startStep_free_at (cs : Bool) (scv : List (List (List Nat)))
    (off : Nat) (st : MaskSt) (i : Nat) (h16 : 16 ≤ off + i) (h24 : off + i < 24)
    (hsingle : ((scv.getD (i / 6) []).map (fun v => v.getD (i % 6) 0)).dedup.length = 1) :
    fbit (startStep cs scv off st i).free_mask (off + i) = true ∧
    (fbit st.free_val (off + i) = false →
      fbit (startStep cs scv off st i).free_val (off + i) =
        decide (((scv.getD (i / 6) []).map (fun v => v.getD (i % 6) 0)).dedup.getD 0 0 ≠ 0)) := by
  simp only [startStep]
  split_ifs with h1 h2 h3
  · omega
  · exact absurd hsingle h2
  · refine ⟨?_, fun hfresh => ?_⟩
    · exact fbit_or_at _ _ _ rfl
    · rw [fbit_or_at _ _ _ rfl]
      exact (decide_eq_true h3).symm
  · refine ⟨?_, fun hfresh => ?_⟩
    · exact fbit_or_at _ _ _ rfl
    · simp only [ciRecord_free_val]
      rw [hfresh]
      exact (decide_eq_false h3).symm

theorem startStep_mask_at (cs : Bool) (scv : List (List (List Nat)))
    (off : Nat) (st : MaskSt) (i : Nat) (h24 : 24 ≤ off + i) (h272 : off + i < 272)
    (hsingle : ((scv.getD (i / 6) []).map (fun v => v.getD (i % 6) 0)).dedup.length = 1)
    (hlen : (off + i) / 8 < st.prefix_mask.length)
    (hlenv : (off + i) / 8 < st.prefix_val.length)
    (hfresh : mget st.prefix_val (off + i) = false) :
    mget (startStep cs scv off st i).prefix_mask (off + i) = true ∧
    mget (startStep cs scv off st i).prefix_val (off + i) =
      decide (((scv.getD (i / 6) []).map (fun v => v.getD (i % 6) 0)).dedup.getD 0 0 ≠ 0) := by
  simp only [startStep]
  split_ifs with h1 h2 h3 h4 h5
  · omega
  · exact absurd hsingle h2
  · omega
  · omega
  · simp only [ciRecord_prefix_mask, ciRecord_prefix_val]
    exact ⟨set_mask_bit_mask_at _ _ _ _ hlen, set_mask_bit_val_at _ _ _ _ hlenv hfresh⟩
  · omega

theorem startStep_mask_length (cs : Bool) (scv : List (List (List Nat)))
    (off : Nat) (st : MaskSt) (i : Nat) :
    (startStep cs scv off st i).prefix_mask.length = st.prefix_mask.length ∧
    (startStep cs scv off st i).prefix_val.length = st.prefix_val.length := by
  simp only [startStep]
  split_ifs <;>
    simp [ciRecord_prefix_mask, ciRecord_prefix_val,
      set_mask_bit_mask_length, set_mask_bit_val_length]

theorem endStep_mask_frame (cs : Bool) (ecv : List (List (List Nat)))
    (bb : Nat) (st : MaskSt) (i q : Nat) (hne : bb + i ≠ q) :
    mget (endStep cs ecv bb st i).prefix_mask q = mget st.prefix_mask q ∧
    mget (endStep cs ecv bb st i).prefix_val q = mget st.prefix_val q := by
  simp only [endStep]
  split_ifs <;>
    simp only [ciRecord_prefix_mask, ciRecord_prefix_val] <;>
    first
      | trivial
      | (constructor <;>
          first
            | trivial
            | (rw [set_mask_bit_mask_frame _ _ _ _ _ hne])
            | (rw [set_mask_bit_val_frame _ _ _ _ _ hne]))

theorem endStep_mask_at (cs : Bool) (ecv : List (List (List Nat)))
    (bb : Nat) (st : MaskSt) (i : Nat) (h16 : 16 ≤ bb + i)
    (hsingle : ((ecv.getD (i / 6) []).map (fun v => v.getD (i % 6) 0)).dedup.length = 1)
    (hlen : (bb + i) / 8 < st.prefix_mask.length)
    (hlenv : (bb + i) / 8 < st.prefix_val.length)
    (hfresh : mget st.prefix_val (bb + i) = false) :
    mget (endStep cs ecv bb st i).prefix_mask (bb + i) = true ∧
    mget (endStep cs ecv bb st i).prefix_val (bb + i) =
      decide (((ecv.getD (i / 6) []).map (fun v => v.getD (i % 6) 0)).dedup.getD 0 0 ≠ 0) := by
  simp only [endStep]
  split_ifs with h1 h2
  · omega
  · exact absurd hsingle h2
  · simp only [ciRecord_prefix_mask, ciRecord_prefix_val]
    exact ⟨set_mask_bit_mask_at _ _ _ _ hlen, set_mask_bit_val_at _ _ _ _ hlenv hfresh⟩

theorem endStep_free_preserved (cs : Bool) (ecv : List (List (List Nat)))
    (bb : Nat) (st : MaskSt) (i : Nat) :
    (endStep cs ecv bb st i).free_mask = st.free_mask ∧
    (endStep cs ecv bb st i).free_val = st.free_val := by
  simp only [endStep]
  split_ifs <;> simp only [ciRecord_free_mask, ciRecord_free_val] <;> trivial

theorem endStep_mask_length (cs : Bool) (ecv : List (List (List Nat)))
    (bb : Nat) (st : MaskSt) (i : Nat) :
    (endStep cs ecv bb st i).prefix_mask.length = st.prefix_mask.length ∧
    (endStep cs ecv bb st i).prefix_val.length = st.prefix_val.length := by
  simp only [endStep]
  split_ifs <;>
    simp [ciRecord_prefix_mask, ciRecord_prefix_val,
      set_mask_bit_mask_length, set_mask_bit_val_length]

theorem dedup_const {α : Type} [DecidableEq α] :
    ∀ (l : List α) (e : α), l ≠ [] → (∀ x ∈ l, x = e) → l.dedup = [e] := by
  intro l
  induction l with
  | nil => intro e h _; exact absurd rfl h
  | cons a t ih =>
    intro e _ h
    have ha : a = e := h a (by simp)
    subst ha
    rcases t with _ | ⟨b, t2⟩
    · simp
    · have hb : b = a := h b (by simp)
      have ht : (b :: t2).dedup = [a] := ih a (by simp) (fun x hx => h x (by simp [hx]))
      have hmem : a ∈ b :: t2 := by rw [hb]; simp
      rw [List.dedup_cons_of_mem hmem, ht]

theorem char_bit_variants_length_le (c : Nat) (cs : Bool) :
    (char_bit_variants c cs).length ≤ 2 := by
  unfold char_bit_variants char_variants
  split_ifs <;> simp

theorem mem_char_bit_variants (c : Nat) (cs : Bool) (v : List Nat)
    (h : v ∈ char_bit_variants c cs) :
    ∃ c2 ∈ char_variants c cs, v = base64url_bits c2 := by
  unfold char_bit_variants at h
  rcases List.mem_map.mp h with ⟨c2, hc2, rfl⟩
  exact ⟨c2, hc2, rfl⟩

theorem mem_filter_variants (vars : List (List Nat)) (pb : List Nat)
    (base : Nat) (v : List Nat) :
    v ∈ filter_variants vars pb base ↔
      v ∈ vars ∧ ∀ b < 6, base + b < 16 → v.getD b 0 = pb.getD (base + b) 0 := by
  unfold filter_variants
  rw [List.mem_filter, agree_all_iff]

theorem filterChars_getD (pb : List Nat) :
    ∀ (co : List (List (List Nat))) (off : Nat) (f : List (List (List Nat))),
      filterChars co pb off = some f →
      f.length = co.length ∧
      ∀ ci < co.length,
        f.getD ci [] = filter_variants (co.getD ci []) pb (off + 6 * ci) ∧
        f.getD ci [] ≠ [] := by
  intro co
  induction co with
  | nil =>
    intro off f h
    simp only [filterChars, Option.some.injEq] at h
    subst h
    exact ⟨rfl, by intro ci hci; simp at hci⟩
  | cons v rest ih =>
    intro off f h
    simp only [filterChars] at h
    split_ifs at h with hvalid
    rcases Option.map_eq_some'.mp h with ⟨frest, hfrest, rfl⟩
    obtain ⟨hlen, hall⟩ := ih (off + 6) frest hfrest
    refine ⟨by simp [hlen], ?_⟩
    intro ci hci
    cases ci with
    | zero =>
      refine ⟨by simp, by simpa using hvalid⟩
    | succ n =>
      have hn : n < rest.length := by simpa using hci
      obtain ⟨he, hne⟩ := hall n hn
      refine ⟨?_, by simpa using hne⟩
      simp only [List.getD_cons_succ]
      rw [he, show off + 6 + 6 * n = off + 6 * (n + 1) from by ring]

theorem addr_bit_eq_mget (l : List Nat) (q : Nat) :
    addr_bit l q = if mget l q then 1 else 0 := by
  unfold addr_bit mget
  rw [bit_extract_div_mod, Nat.testBit_to_div_mod]
  rcases Nat.mod_two_eq_zero_or_one (l.getD (q / 8) 0 / 2 ^ (7 - q % 8)) with h | h <;>
    rw [h] <;> simp

theorem and_bit_eq (a m v k : Nat) (h : a &&& m = v) (hm : Nat.testBit m k = true) :
    Nat.testBit a k = Nat.testBit v k := by
  rw [← h, Nat.testBit_and, hm, Bool.and_true]

theorem addr_bit_flags (l : List Nat) (cli : CliConfig) (q : Nat) (hq : q < 16)
    (h0 : l.getD 0 0 = flags_byte_of cli) (h1 : l.getD 1 0 = wc_byte_of cli) :
    addr_bit l q = (prefix_bits_of cli).getD q 0 := by
  unfold prefix_bits_of addr_bit bits_from_byte
  simp only [List.getD_eq_getElem?_getD] at h0 h1
  interval_cases q <;> simp [h0, h1]

theorem digit6_of_bits (l : List Nat) (D c : Nat) (h : is_b64_char c = true)
    (hb : ∀ b < 6, addr_bit l (6 * D + b) = (base64url_bits c).getD b 0) :
    digit6 l D = base64url_value c := by
  have h0 := hb 0 (by omega); have h1 := hb 1 (by omega)
  have h2 := hb 2 (by omega); have h3 := hb 3 (by omega)
  have h4 := hb 4 (by omega); have h5 := hb 5 (by omega)
  rw [base64url_bits_list] at h0 h1 h2 h3 h4 h5
  simp only [List.getD_cons_zero, List.getD_cons_succ, Nat.add_zero] at h0 h1 h2 h3 h4 h5
  unfold digit6
  rw [h0, h1, h2, h3, h4, h5]
  simp only [bit_extract_div_mod]
  have hv := base64url_value_lt c h
  norm_num
  omega

theorem mget_free_byte (l : List Nat) (q : Nat) (h16 : 16 ≤ q) (h24 : q < 24) :
    mget l q = fbit (l.getD 2 0) q := by
  unfold mget fbit
  rw [show q / 8 = 2 from by omega]

theorem addr_bit_of_mget (l : List Nat) (q bitv : Nat) (hb : bitv ≤ 1)
    (h : mget l q = decide (bitv ≠ 0)) :
    addr_bit l q = bitv := by
  rw [addr_bit_eq_mget, h]
  interval_cases bitv <;> simp

theorem startFold_prefix_frame (cs : Bool) (scv : List (List (List Nat)))
    (off q : Nat) :
    ∀ (l : List Nat) (st : MaskSt), (∀ i ∈ l, off + i ≠ q) →
      mget ((l.foldl (startStep cs scv off) st).prefix_mask) q = mget st.prefix_mask q ∧
      mget ((l.foldl (startStep cs scv off) st).prefix_val) q = mget st.prefix_val q := by
  intro l
  induction l with
  | nil => intro st _; exact ⟨rfl, rfl⟩
  | cons i t ih =>
    intro st h
    rw [List.foldl_cons]
    have hstep := startStep_mask_frame cs scv off st i q (h i (by simp))
    have hrest := ih (startStep cs scv off st i) (fun j hj => h j (by simp [hj]))
    exact ⟨hrest.1.trans hstep.1, hrest.2.trans hstep.2⟩

theorem startFold_free_frame (cs : Bool) (scv : List (List (List Nat)))
    (off q : Nat) (hq16 : 16 ≤ q) (hq24 : q < 24) :
    ∀ (l : List Nat) (st : MaskSt), (∀ i ∈ l, off + i ≠ q) →
      fbit ((l.foldl (startStep cs scv off) st).free_mask) q = fbit st.free_mask q ∧
      fbit ((l.foldl (startStep cs scv off) st).free_val) q = fbit st.free_val q := by
  intro l
  induction l with
  | nil => intro st _; exact ⟨rfl, rfl⟩
  | cons i t ih =>
    intro st h
    rw [List.foldl_cons]
    have hstep := startStep_free_frame cs scv off st i q hq16 hq24 (h i (by simp))
    have hrest := ih (startStep cs scv off st i) (fun j hj => h j (by simp [hj]))
    exact ⟨hrest.1.trans hstep.1, hrest.2.trans hstep.2⟩

theorem startFold_lengths (cs : Bool) (scv : List (List (List Nat))) (off : Nat) :
    ∀ (l : List Nat) (st : MaskSt),
      ((l.foldl (startStep cs scv off) st).prefix_mask).length = st.prefix_mask.length ∧
      ((l.foldl (startStep cs scv off) st).prefix_val).length = st.prefix_val.length := by
  intro l
  induction l with
  | nil => intro st; exact ⟨rfl, rfl⟩
  | cons i t ih =>
    intro st
    rw [List.foldl_cons]
    have hstep := startStep_mask_length cs scv off st i
    have hrest := ih (startStep cs scv off st i)
    exact ⟨hrest.1.trans hstep.1, hrest.2.trans hstep.2⟩

theorem startFold_ci_mono (cs : Bool) (scv : List (List (List Nat)))
    (off q : Nat) :
    ∀ (l : List Nat) (st : MaskSt), q ∈ st.ci_bitpos →
      q ∈ (l.foldl (startStep cs scv off) st).ci_bitpos := by
  intro l
  induction l with
  | nil => intro st h; exact h
  | cons i t ih =>
    intro st h
    rw [List.foldl_cons]
    refine ih _ ?_
    rw [startStep_ci_eq]
    exact ciRecord_ci_mono _ _ _ _ _ _ h

theorem endFold_prefix_frame (cs : Bool) (ecv : List (List (List Nat)))
    (bb q : Nat) :
    ∀ (l : List Nat) (st : MaskSt), (∀ i ∈ l, bb + i ≠ q) →
      mget ((l.foldl (endStep cs ecv bb) st).prefix_mask) q = mget st.prefix_mask q ∧
      mget ((l.foldl (endStep cs ecv bb) st).prefix_val) q = mget st.prefix_val q := by
  intro l
  induction l with
  | nil => intro st _; exact ⟨rfl, rfl⟩
  | cons i t ih =>
    intro st h
    rw [List.foldl_cons]
    have hstep := endStep_mask_frame cs ecv bb st i q (h i (by simp))
    have hrest := ih (endStep cs ecv bb st i) (fun j hj => h j (by simp [hj]))
    exact ⟨hrest.1.trans hstep.1, hrest.2.trans hstep.2⟩

theorem endFold_free_preserved (cs : Bool) (ecv : List (List (List Nat)))
    (bb : Nat) :
    ∀ (l : List Nat) (st : MaskSt),
      ((l.foldl (endStep cs ecv bb) st).free_mask) = st.free_mask ∧
      ((l.foldl (endStep cs ecv bb) st).free_val) = st.free_val := by
  intro l
  induction l with
  | nil => intro st; exact ⟨rfl, rfl⟩
  | cons i t ih =>
    intro st
    rw [List.foldl_cons]
    have hstep := endStep_free_preserved cs ecv bb st i
    have hrest := ih (endStep cs ecv bb st i)
    exact ⟨hrest.1.trans hstep.1, hrest.2.trans hstep.2⟩

theorem endFold_lengths (cs : Bool) (ecv : List (List (List Nat))) (bb : Nat) :
    ∀ (l : List Nat) (st : MaskSt),
      ((l.foldl (endStep cs ecv bb) st).prefix_mask).length = st.prefix_mask.length ∧
      ((l.foldl (endStep cs ecv bb) st).prefix_val).length = st.prefix_val.length := by
  intro l
  induction l with
  | nil => intro st; exact ⟨rfl, rfl⟩
  | cons i t ih =>
    intro st
    rw [List.foldl_cons]
    have hstep := endStep_mask_length cs ecv bb st i
    have hrest := ih (endStep cs ecv bb st i)
    exact ⟨hrest.1.trans hstep.1, hrest.2.trans hstep.2⟩

theorem endFold_ci_mono (cs : Bool) (ecv : List (List (List Nat)))
    (bb q : Nat) :
    ∀ (l : List Nat) (st : MaskSt), q ∈ st.ci_bitpos →
      q ∈ (l.foldl (endStep cs ecv bb) st).ci_bitpos := by
  intro l
  induction l with
  | nil => intro st h; exact h
  | cons i t ih =>
    intro st h
    rw [List.foldl_cons]
    refine ih _ ?_
    rw [endStep_ci_eq]
    exact ciRecord_ci_mono _ _ _ _ _ _ h

theorem startFold_mask_at (cs : Bool) (scv : List (List (List Nat))) (off : Nat)
    (S i0 : Nat) (hi0 : i0 < S) (h24 : 24 ≤ off + i0) (h272 : off + i0 < 272)
    (hsingle : ((scv.getD (i0 / 6) []).map
      (fun v => v.getD (i0 % 6) 0)).dedup.length = 1) :
    mget (((List.range S).foldl (startStep cs scv off) maskSt0).prefix_mask)
      (off + i0) = true ∧
    mget (((List.range S).foldl (startStep cs scv off) maskSt0).prefix_val)
      (off + i0) =
      decide (((scv.getD (i0 / 6) []).map
        (fun v => v.getD (i0 % 6) 0)).dedup.getD 0 0 ≠ 0) := by
  have hS : S = (i0 + 1) + (S - i0 - 1) := by omega
  rw [hS, List.range_add, List.foldl_append, List.range_succ, List.foldl_append]
  simp only [List.foldl_cons, List.foldl_nil]
  have hframe := startFold_prefix_frame cs scv off (off + i0) (List.range i0) maskSt0
    (fun i hi => by have := List.mem_range.mp hi; omega)
  have hlen := startFold_lengths cs scv off (List.range i0) maskSt0
  have hmlen : ((List.range i0).foldl (startStep cs scv off)
      maskSt0).prefix_mask.length = 36 := hlen.1
  have hvlen : ((List.range i0).foldl (startStep cs scv off)
      maskSt0).prefix_val.length = 36 := hlen.2
  have hfresh : mget (((List.range i0).foldl (startStep cs scv off)
      maskSt0).prefix_val) (off + i0) = false :=
    hframe.2.trans (mget_replicate_zero 36 (off + i0))
  have hw := startStep_mask_at cs scv off
    ((List.range i0).foldl (startStep cs scv off) maskSt0) i0 h24 h272 hsingle
    (by rw [hmlen]; omega) (by rw [hvlen]; omega) hfresh
  refine ⟨Eq.trans (startFold_prefix_frame cs scv off (off + i0) _ _ ?_).1 hw.1,
          Eq.trans (startFold_prefix_frame cs scv off (off + i0) _ _ ?_).2 hw.2⟩ <;>
  · intro i hi
    rcases List.mem_map.mp hi with ⟨j, hj, rfl⟩
    omega

theorem startFold_free_at (cs : Bool) (scv : List (List (List Nat))) (off : Nat)
    (S i0 : Nat) (hi0 : i0 < S) (h16 : 16 ≤ off + i0) (h24 : off + i0 < 24)
    (hsingle : ((scv.getD (i0 / 6) []).map
      (fun v => v.getD (i0 % 6) 0)).dedup.length = 1) :
    fbit (((List.range S).foldl (startStep cs scv off) maskSt0).free_mask)
      (off + i0) = true ∧
    fbit (((List.range S).foldl (startStep cs scv off) maskSt0).free_val)
      (off + i0) =
      decide (((scv.getD (i0 / 6) []).map
        (fun v => v.getD (i0 % 6) 0)).dedup.getD 0 0 ≠ 0) := by
  have hS : S = (i0 + 1) + (S - i0 - 1) := by omega
  rw [hS, List.range_add, List.foldl_append, List.range_succ, List.foldl_append]
  simp only [List.foldl_cons, List.foldl_nil]
  have hframe := startFold_free_frame cs scv off (off + i0) h16 h24
    (List.range i0) maskSt0 (fun i hi => by have := List.mem_range.mp hi; omega)
  have hfresh : fbit (((List.range i0).foldl (startStep cs scv off)
      maskSt0).free_val) (off + i0) = false :=
    hframe.2.trans (Nat.zero_testBit _)
  have hw := startStep_free_at cs scv off
    ((List.range i0).foldl (startStep cs scv off) maskSt0) i0 h16 h24 hsingle
  refine ⟨Eq.trans (startFold_free_frame cs scv off (off + i0) h16 h24 _ _ ?_).1 hw.1,
          Eq.trans (startFold_free_frame cs scv off (off + i0) h16 h24 _ _ ?_).2
            (hw.2 hfresh)⟩ <;>
  · intro i hi
    rcases List.mem_map.mp hi with ⟨j, hj, rfl⟩
    omega

theorem endFold_mask_at (cs : Bool) (ecv : List (List (List Nat))) (bb : Nat)
    (E i0 : Nat) (st1 : MaskSt) (hi0 : i0 < E) (h16 : 16 ≤ bb + i0)
    (hsingle : ((ecv.getD (i0 / 6) []).map
      (fun v => v.getD (i0 % 6) 0)).dedup.length = 1)
    (hlen1 : st1.prefix_mask.length = 36) (hlen2 : st1.prefix_val.length = 36)
    (hfresh : mget st1.prefix_val (bb + i0) = false) (hbi : bb + i0 < 288) :
    mget (((List.range E).foldl (endStep cs ecv bb) st1).prefix_mask)
      (bb + i0) = true ∧
    mget (((List.range E).foldl (endStep cs ecv bb) st1).prefix_val)
      (bb + i0) =
      decide (((ecv.getD (i0 / 6) []).map
        (fun v => v.getD (i0 % 6) 0)).dedup.getD 0 0 ≠ 0) := by
  have hS : E = (i0 + 1) + (E - i0 - 1) := by omega
  rw [hS, List.range_add, List.foldl_append, List.range_succ, List.foldl_append]
  simp only [List.foldl_cons, List.foldl_nil]
  have hframe := endFold_prefix_frame cs ecv bb (bb + i0) (List.range i0) st1
    (fun i hi => by have := List.mem_range.mp hi; omega)
  have hlen := endFold_lengths cs ecv bb (List.range i0) st1
  have hfresh2 : mget (((List.range i0).foldl (endStep cs ecv bb)
      st1).prefix_val) (bb + i0) = false := hframe.2.trans hfresh
  have hw := endStep_mask_at cs ecv bb
    ((List.range i0).foldl (endStep cs ecv bb) st1) i0 h16 hsingle
    (by rw [hlen.1, hlen1]; omega) (by rw [hlen.2, hlen2]; omega) hfresh2
  refine ⟨Eq.trans (endFold_prefix_frame cs ecv bb (bb + i0) _ _ ?_).1 hw.1,
          Eq.trans (endFold_prefix_frame cs ecv bb (bb + i0) _ _ ?_).2 hw.2⟩ <;>
  · intro i hi
    rcases List.mem_map.mp hi with ⟨j, hj, rfl⟩
    omega

theorem map_dedup_uniform {α β : Type} [DecidableEq β] (vars : List α) (w : α)
    (f : α → β) (hne : vars ≠ []) (huni : ∀ v ∈ vars, v = w) :
    (vars.map f).dedup = [f w] := by
  apply dedup_const
  · simp [hne]
  · intro x hx
    rcases List.mem_map.mp hx with ⟨v, hv, rfl⟩
    rw [huni v hv]

theorem variants_uniform (c : Nat) (cs : Bool) (vars : List (List Nat))
    (hsub : ∀ v ∈ vars, v ∈ char_bit_variants c cs)
    (hvlen : vars.length ≤ 2) (hne : vars ≠ [])
    (hnd : ¬ (cs = false ∧ ((vars.map sixVal).dedup).length = 2)) :
    ∃ c2 ∈ char_variants c cs, ∀ v ∈ vars, v = base64url_bits c2 := by
  rcases vars with _ | ⟨v0, rest⟩
  · exact absurd rfl hne
  obtain ⟨c2, hc2, hv0⟩ := mem_char_bit_variants c cs v0 (hsub v0 (by simp))
  refine ⟨c2, hc2, ?_⟩
  cases hcs : cs with
  | true =>
    intro v hv
    have h1 := hsub v hv
    have h2 := hsub v0 (by simp)
    rw [hcs] at h1 h2
    simp only [char_bit_variants, char_variants, if_true, List.map_cons,
      List.map_nil, List.mem_singleton] at h1 h2
    exact h1.trans (hv0.symm.trans h2).symm
  | false =>
    subst hcs
    have h2 : ((((v0 :: rest).map sixVal).dedup).length = 2) → False :=
      fun hl => hnd ⟨rfl, hl⟩
    have hld : (((v0 :: rest).map sixVal).dedup).length ≤ 2 := by
      calc ((v0 :: rest).map sixVal).dedup.length
          ≤ ((v0 :: rest).map sixVal).length := (List.dedup_sublist _).length_le
        _ = (v0 :: rest).length := List.length_map _ _
        _ ≤ 2 := hvlen
    have hlpos : 0 < (((v0 :: rest).map sixVal).dedup).length := by
      rw [List.length_pos, Ne, List.dedup_eq_nil]
      simp
    have hl1 : (((v0 :: rest).map sixVal).dedup).length = 1 := by
      rcases Nat.lt_or_ge (((v0 :: rest).map sixVal).dedup).length 2 with h | h
      · omega
      · exact absurd (by omega) h2
    obtain ⟨e, he⟩ := List.length_eq_one.mp hl1
    have hall : ∀ v ∈ v0 :: rest, sixVal v = e := by
      intro v hv
      have hmem : sixVal v ∈ ((v0 :: rest).map sixVal).dedup := by
        rw [List.mem_dedup]
        exact List.mem_map_of_mem _ hv
      rw [he] at hmem
      simpa using hmem
    intro v hv
    obtain ⟨cv, hcv, hveq⟩ := mem_char_bit_variants c false v (hsub v hv)
    have hsv : sixVal v = sixVal v0 := by rw [hall v hv, hall v0 (by simp)]
    have heq := sixVal_inj_bits v v0
      (by rw [hveq]; exact base64url_bits_length cv)
      (by rw [hv0]; exact base64url_bits_length c2)
      (by rw [hveq]; exact base64url_bits_bounds cv)
      (by rw [hv0]; exact base64url_bits_bounds c2) hsv
    rw [heq, hv0]

theorem build_masks_snd (cli : CliConfig) (h : cli.start ≠ []) :
    (build_masks cli).2 = (choose_start_alignment cli.start cli.case_sensitive
      (prefix_bits_of cli)).1 := by
  simp only [build_masks]
  split_ifs <;> rfl

theorem build_masks_fst (cli : CliConfig) (h : cli.start ≠ []) :
    (build_masks cli).1 =
      (if cli.end_ ≠ [] then
        (List.range (6 * cli.end_.length)).foldl
          (endStep cli.case_sensitive
            (cli.end_.map (fun c => char_bit_variants c cli.case_sensitive))
            (288 - 6 * cli.end_.length))
          ((List.range (6 * cli.start.length)).foldl
            (startStep cli.case_sensitive
              (choose_start_alignment cli.start cli.case_sensitive
                (prefix_bits_of cli)).2
              ((choose_start_alignment cli.start cli.case_sensitive
                (prefix_bits_of cli)).1 * 6))
            maskSt0)
      else
        (List.range (6 * cli.start.length)).foldl
          (startStep cli.case_sensitive
            (choose_start_alignment cli.start cli.case_sensitive
              (prefix_bits_of cli)).2
            ((choose_start_alignment cli.start cli.case_sensitive
              (prefix_bits_of cli)).1 * 6))
          maskSt0) := by
  simp only [build_masks]
  split_ifs <;> rfl

theorem build_kernel_config_masks (cli : CliConfig) (owner_raw : List Nat) :
    (build_kernel_config cli owner_raw).1.prefix_mask = (build_masks cli).1.prefix_mask ∧
    (build_kernel_config cli owner_raw).1.prefix_val = (build_masks cli).1.prefix_val ∧
    (build_kernel_config cli owner_raw).1.free_hash_mask = (build_masks cli).1.free_mask ∧
    (build_kernel_config cli owner_raw).1.free_hash_val = (build_masks cli).1.free_val ∧
    (build_kernel_config cli owner_raw).1.ci_bitpos = (build_masks cli).1.ci_bitpos ∧
    (build_kernel_config cli owner_raw).1.flags_hi = flags_byte_of cli ∧
    (build_kernel_config cli owner_raw).1.flags_lo = wc_byte_of cli ∧
    (build_kernel_config cli owner_raw).2 = (build_masks cli).2 :=
  ⟨rfl, rfl, rfl, rfl, rfl, rfl, rfl, rfl⟩

theorem start_digit_core (cs : Bool) (pb : List Nat) (start endp : List Nat)
    (sdb : Nat) (scv : List (List (List Nat))) (st2 : MaskSt) (repr : List Nat)
    (hlen : repr.length = 36)
    (hvalid : ∀ c ∈ start, is_b64_char c = true)
    (hfc : filterChars (start.map (fun c => char_bit_variants c cs)) pb (6 * sdb) =
      some scv)
    (hfit : 6 * (sdb + start.length) ≤ 272)
    (hsep : 6 * (sdb + start.length) ≤ 288 - 6 * endp.length)
    (hst2 : st2 = (if endp ≠ [] then
        (List.range (6 * endp.length)).foldl
          (endStep cs (endp.map (fun c => char_bit_variants c cs))
            (288 - 6 * endp.length))
          ((List.range (6 * start.length)).foldl (startStep cs scv (sdb * 6)) maskSt0)
      else (List.range (6 * start.length)).foldl (startStep cs scv (sdb * 6)) maskSt0))
    (hpbbits : ∀ q < 16, addr_bit repr q = pb.getD q 0)
    (hfree : repr.getD 2 0 &&& st2.free_mask = st2.free_val)
    (hmask : ∀ i < 36, repr.getD i 0 &&& st2.prefix_mask.getD i 0 =
      st2.prefix_val.getD i 0)
    (ci : Nat) (hci : ci < start.length)
    (hnc : 6 * (sdb + ci) ∉ st2.ci_bitpos) :
    (b64encode repr).getD (sdb + ci) 0 ∈ char_variants (start.getD ci 0) cs := by
  obtain ⟨hflen, hfall⟩ := filterChars_getD pb
    (start.map (fun c => char_bit_variants c cs)) (6 * sdb) scv hfc
  have hco : (start.map (fun c => char_bit_variants c cs)).getD ci [] =
      char_bit_variants (start.getD ci 0) cs :=
    getD_map_variants start _ ci hci
  obtain ⟨hfe, hfne⟩ := hfall ci (by rw [List.length_map]; exact hci)
  rw [hco] at hfe
  have hsub : ∀ v ∈ scv.getD ci [],
      v ∈ char_bit_variants (start.getD ci 0) cs := by
    intro v hv
    rw [hfe] at hv
    exact ((mem_filter_variants _ _ _ _).mp hv).1
  have hagree : ∀ v ∈ scv.getD ci [], ∀ b < 6, 6 * sdb + 6 * ci + b < 16 →
      v.getD b 0 = pb.getD (6 * sdb + 6 * ci + b) 0 := by
    intro v hv
    rw [hfe] at hv
    exact ((mem_filter_variants _ _ _ _).mp hv).2
  have hvarslen : (scv.getD ci []).length ≤ 2 := by
    rw [hfe]
    exact le_trans (List.length_filter_le _ _)
      (char_bit_variants_length_le (start.getD ci 0) cs)
  have hnd : ¬ (cs = false ∧
      (((scv.getD ci []).map sixVal).dedup).length = 2) := by
    rintro ⟨hcs, h2⟩
    apply hnc
    rw [hst2]
    have hdiv : 6 * ci / 6 = ci := by omega
    have hmod : 6 * ci % 6 = 0 := by omega
    have hrec : 6 * (sdb + ci) ∈ ((List.range (6 * start.length)).foldl
        (startStep cs scv (sdb * 6)) maskSt0).ci_bitpos := by
      have hS2 : 6 * start.length =
          (6 * ci + 1) + (6 * start.length - 6 * ci - 1) := by omega
      rw [hS2, List.range_add, List.foldl_append, List.range_succ, List.foldl_append]
      simp only [List.foldl_cons, List.foldl_nil]
      apply startFold_ci_mono
      rw [startStep_ci_eq, hdiv, hmod, hcs]
      have hbi : sdb * 6 + 6 * ci = 6 * (sdb + ci) := by ring
      rw [hbi]
      exact ciRecord_records _ _ _ h2
    split
    · exact endFold_ci_mono _ _ _ _ _ _ hrec
    · exact hrec
  obtain ⟨c2, hc2, huni⟩ := variants_uniform (start.getD ci 0) cs (scv.getD ci [])
    hsub hvarslen hfne hnd
  have hmemv : base64url_bits c2 ∈ scv.getD ci [] := by
    rcases List.exists_mem_of_ne_nil _ hfne with ⟨w, hw⟩
    rw [← huni w hw]
    exact hw
  have hb2 : ∀ b < 6, (base64url_bits c2).getD b 0 ≤ 1 := by
    intro b hb
    apply base64url_bits_bounds c2
    apply getD_mem_of_lt
    rw [base64url_bits_length]
    exact hb
  have hbit : ∀ b < 6, addr_bit repr (6 * (sdb + ci) + b) =
      (base64url_bits c2).getD b 0 := by
    intro b hb
    have hdiv : (6 * ci + b) / 6 = ci := by omega
    have hmod : (6 * ci + b) % 6 = b := by omega
    have hdedup : (((scv.getD ((6 * ci + b) / 6) []).map
        (fun v => v.getD ((6 * ci + b) % 6) 0)).dedup) =
        [(base64url_bits c2).getD b 0] := by
      rw [hdiv, hmod]
      exact map_dedup_uniform _ _ _ hfne huni
    have hsingle : (((scv.getD ((6 * ci + b) / 6) []).map
        (fun v => v.getD ((6 * ci + b) % 6) 0)).dedup).length = 1 := by
      rw [hdedup]
      rfl
    have hq : 6 * (sdb + ci) + b = sdb * 6 + (6 * ci + b) := by ring
    by_cases hq16 : sdb * 6 + (6 * ci + b) < 16
    · rw [hq, hpbbits _ hq16]
      have hag := hagree (base64url_bits c2) hmemv b hb (by omega)
      rw [show sdb * 6 + (6 * ci + b) = 6 * sdb + 6 * ci + b from by ring]
      exact hag.symm
    · by_cases hq24 : sdb * 6 + (6 * ci + b) < 24
      · have hw := startFold_free_at cs scv (sdb * 6) (6 * start.length)
          (6 * ci + b) (by omega) (by omega) (by omega) hsingle
        have hfm : st2.free_mask = ((List.range (6 * start.length)).foldl
              (startStep cs scv (sdb * 6)) maskSt0).free_mask ∧
            st2.free_val = ((List.range (6 * start.length)).foldl
              (startStep cs scv (sdb * 6)) maskSt0).free_val := by
          rw [hst2]
          split
          · exact endFold_free_preserved _ _ _ _ _
          · exact ⟨rfl, rfl⟩
        have hmaskbit : fbit st2.free_mask (sdb * 6 + (6 * ci + b)) = true := by
          rw [hfm.1]; exact hw.1
        have hvalbit : fbit st2.free_val (sdb * 6 + (6 * ci + b)) =
            decide ((base64url_bits c2).getD b 0 ≠ 0) := by
          rw [hfm.2, hw.2, hdedup]
          rfl
        have htb : Nat.testBit (repr.getD 2 0)
            (7 - (sdb * 6 + (6 * ci + b)) % 8) =
            Nat.testBit st2.free_val (7 - (sdb * 6 + (6 * ci + b)) % 8) :=
          and_bit_eq _ _ _ _ hfree hmaskbit
        have hmg : mget repr (sdb * 6 + (6 * ci + b)) =
            decide ((base64url_bits c2).getD b 0 ≠ 0) := by
          rw [mget_free_byte repr _ (by omega) (by omega)]
          unfold fbit
          rw [htb]
          exact hvalbit
        rw [hq]
        exact addr_bit_of_mget _ _ _ (hb2 b hb) hmg
      · have hq272 : sdb * 6 + (6 * ci + b) < 272 := by omega
        have hw := startFold_mask_at cs scv (sdb * 6) (6 * start.length)
          (6 * ci + b) (by omega) (by omega) hq272 hsingle
        have hpm : mget st2.prefix_mask (sdb * 6 + (6 * ci + b)) = true ∧
            mget st2.prefix_val (sdb * 6 + (6 * ci + b)) =
              decide ((base64url_bits c2).getD b 0 ≠ 0) := by
          rw [hst2]
          split
          · have hfr := endFold_prefix_frame cs
              (endp.map (fun c => char_bit_variants c cs)) (288 - 6 * endp.length)
              (sdb * 6 + (6 * ci + b)) (List.range (6 * endp.length))
              ((List.range (6 * start.length)).foldl (startStep cs scv (sdb * 6))
                maskSt0)
              (fun i hi => by have := List.mem_range.mp hi; omega)
            refine ⟨hfr.1.trans hw.1, (hfr.2.trans hw.2).trans ?_⟩
            rw [hdedup]
            rfl
          · refine ⟨hw.1, hw.2.trans ?_⟩
            rw [hdedup]
            rfl
        have hbyte := hmask ((sdb * 6 + (6 * ci + b)) / 8) (by omega)
        have htb : Nat.testBit (repr.getD ((sdb * 6 + (6 * ci + b)) / 8) 0)
            (7 - (sdb * 6 + (6 * ci + b)) % 8) =
            Nat.testBit (st2.prefix_val.getD ((sdb * 6 + (6 * ci + b)) / 8) 0)
            (7 - (sdb * 6 + (6 * ci + b)) % 8) :=
          and_bit_eq _ _ _ _ hbyte hpm.1
        have hmg : mget repr (sdb * 6 + (6 * ci + b)) =
            decide ((base64url_bits c2).getD b 0 ≠ 0) := by
          unfold mget
          rw [htb]
          exact hpm.2
        rw [hq]
        exact addr_bit_of_mget _ _ _ (hb2 b hb) hmg
  have hmemc : start.getD ci 0 ∈ start := getD_mem_of_lt start ci 0 hci
  have hvc : is_b64_char (start.getD ci 0) = true := hvalid _ hmemc
  have hvc2 : is_b64_char c2 = true := is_b64_char_variants _ cs hvc c2 hc2
  have hdg : digit6 repr (sdb + ci) = base64url_value c2 :=
    digit6_of_bits repr (sdb + ci) c2 hvc2 hbit
  have henc : (b64encode repr).getD (sdb + ci) 0 =
      b64CharCode (digit6 repr (sdb + ci)) :=
    b64encode_getD repr (sdb + ci) (by rw [hlen]; omega)
  rw [henc, hdg, b64CharCode_value c2 hvc2]
  exact hc2

theorem end_digit_core (cs : Bool) (endp : List Nat) (st1 st2 : MaskSt)
    (repr : List Nat)
    (hlen : repr.length = 36)
    (hvalid : ∀ c ∈ endp, is_b64_char c = true)
    (hefit : 6 * endp.length ≤ 272)
    (hst2 : st2 = (List.range (6 * endp.length)).foldl
      (endStep cs (endp.map (fun c => char_bit_variants c cs))
        (288 - 6 * endp.length)) st1)
    (hlen1 : st1.prefix_mask.length = 36) (hlen2 : st1.prefix_val.length = 36)
    (hfresh : ∀ q, 288 - 6 * endp.length ≤ q → mget st1.prefix_val q = false)
    (hmask : ∀ i < 36, repr.getD i 0 &&& st2.prefix_mask.getD i 0 =
      st2.prefix_val.getD i 0)
    (ci : Nat) (hci : ci < endp.length)
    (hnc : (288 - 6 * endp.length) + 6 * ci ∉ st2.ci_bitpos) :
    (b64encode repr).getD (48 - endp.length + ci) 0 ∈
      char_variants (endp.getD ci 0) cs := by
  have hE : endp.length ≤ 45 := by omega
  have hco : (endp.map (fun c => char_bit_variants c cs)).getD ci [] =
      char_bit_variants (endp.getD ci 0) cs := getD_map_variants endp _ ci hci
  have hsub : ∀ v ∈ (endp.map (fun c => char_bit_variants c cs)).getD ci [],
      v ∈ char_bit_variants (endp.getD ci 0) cs := by
    intro v hv; rw [hco] at hv; exact hv
  have hne : (endp.map (fun c => char_bit_variants c cs)).getD ci [] ≠ [] := by
    rw [hco]; exact char_bit_variants_ne_nil _ _
  have hvarslen :
      ((endp.map (fun c => char_bit_variants c cs)).getD ci []).length ≤ 2 := by
    rw [hco]; exact char_bit_variants_length_le _ _
  have hnd : ¬ (cs = false ∧
      ((((endp.map (fun c => char_bit_variants c cs)).getD ci []).map
        sixVal).dedup).length = 2) := by
    rintro ⟨hcs, h2⟩
    subst hcs
    apply hnc
    rw [hst2]
    have hdiv : 6 * ci / 6 = ci := by omega
    have hmod : 6 * ci % 6 = 0 := by omega
    have hS2 : 6 * endp.length =
        (6 * ci + 1) + (6 * endp.length - 6 * ci - 1) := by omega
    rw [hS2, List.range_add, List.foldl_append, List.range_succ, List.foldl_append]
    simp only [List.foldl_cons, List.foldl_nil]
    apply endFold_ci_mono
    rw [endStep_ci_eq, hdiv, hmod]
    exact ciRecord_records _ _ _ h2
  obtain ⟨c2, hc2, huni⟩ := variants_uniform (endp.getD ci 0) cs _ hsub hvarslen hne hnd
  have hb2 : ∀ b < 6, (base64url_bits c2).getD b 0 ≤ 1 := by
    intro b hb
    apply base64url_bits_bounds c2
    apply getD_mem_of_lt
    rw [base64url_bits_length]
    exact hb
  have hbit : ∀ b < 6, addr_bit repr (6 * (48 - endp.length + ci) + b) =
      (base64url_bits c2).getD b 0 := by
    intro b hb
    have hq : 6 * (48 - endp.length + ci) + b =
        (288 - 6 * endp.length) + (6 * ci + b) := by omega
    have hdiv : (6 * ci + b) / 6 = ci := by omega
    have hmod : (6 * ci + b) % 6 = b := by omega
    have hdedup : ((((endp.map (fun c => char_bit_variants c cs)).getD
        ((6 * ci + b) / 6) []).map (fun v => v.getD ((6 * ci + b) % 6) 0)).dedup) =
        [(base64url_bits c2).getD b 0] := by
      rw [hdiv, hmod]
      exact map_dedup_uniform _ _ _ hne huni
    have hsingle : ((((endp.map (fun c => char_bit_variants c cs)).getD
        ((6 * ci + b) / 6) []).map
        (fun v => v.getD ((6 * ci + b) % 6) 0)).dedup).length = 1 := by
      rw [hdedup]
      rfl
    have hw := endFold_mask_at cs (endp.map (fun c => char_bit_variants c cs))
      (288 - 6 * endp.length) (6 * endp.length) (6 * ci + b) st1
      (by omega) (by omega) hsingle hlen1 hlen2
      (hfresh _ (by omega)) (by omega)
    have hpm : mget st2.prefix_mask ((288 - 6 * endp.length) + (6 * ci + b)) =
        true ∧
        mget st2.prefix_val ((288 - 6 * endp.length) + (6 * ci + b)) =
          decide ((base64url_bits c2).getD b 0 ≠ 0) := by
      rw [hst2]
      refine ⟨hw.1, hw.2.trans ?_⟩
      rw [hdedup]
      rfl
    have hbyte := hmask (((288 - 6 * endp.length) + (6 * ci + b)) / 8) (by omega)
    have htb : Nat.testBit
        (repr.getD (((288 - 6 * endp.length) + (6 * ci + b)) / 8) 0)
        (7 - ((288 - 6 * endp.length) + (6 * ci + b)) % 8) =
        Nat.testBit
        (st2.prefix_val.getD (((288 - 6 * endp.length) + (6 * ci + b)) / 8) 0)
        (7 - ((288 - 6 * endp.length) + (6 * ci + b)) % 8) :=
      and_bit_eq _ _ _ _ hbyte hpm.1
    have hmg : mget repr ((288 - 6 * endp.length) + (6 * ci + b)) =
        decide ((base64url_bits c2).getD b 0 ≠ 0) := by
      unfold mget
      rw [htb]
      exact hpm.2
    rw [hq]
    exact addr_bit_of_mget _ _ _ (hb2 b hb) hmg
  have hmemc : endp.getD ci 0 ∈ endp := getD_mem_of_lt endp ci 0 hci
  have hvc : is_b64_char (endp.getD ci 0) = true := hvalid _ hmemc
  have hvc2 : is_b64_char c2 = true := is_b64_char_variants _ cs hvc c2 hc2
  have hdg : digit6 repr (48 - endp.length + ci) = base64url_value c2 :=
    digit6_of_bits repr (48 - endp.length + ci) c2 hvc2 hbit
  have henc : (b64encode repr).getD (48 - endp.length + ci) 0 =
      b64CharCode (digit6 repr (48 - endp.length + ci)) :=
    b64encode_getD repr (48 - endp.length + ci) (by rw [hlen]; omega)
  rw [henc, hdg, b64CharCode_value c2 hvc2]
  exact hc2

theorem build_masks_fst_nostart (cli : CliConfig) (h : cli.start = []) :
    (build_masks cli).1 =
      (if cli.end_ ≠ [] then
        (List.range (6 * cli.end_.length)).foldl
          (endStep cli.case_sensitive
            (cli.end_.map (fun c => char_bit_variants c cli.case_sensitive))
            (288 - 6 * cli.end_.length)) maskSt0
      else maskSt0) := by
  simp only [build_masks, h]
  simp

/-- C1: the byte-level mask equations `(repr[i] & prefix_mask[i]) == prefix_val[i]`
alone do not force the encoded address to carry the start pattern (the flag bytes
and the free-byte bits live outside `prefix_mask`); under the amended
hypotheses — flag bytes fixed, free-byte constraint satisfied, a successful
start alignment, and patterns that fit inside the hash region without
overlapping — every pattern digit not covered by a case-insensitive ambiguity
entry of `ci_bitpos` is forced to one of its case variants, for the start
pattern from digit `start_digit_base` and for the end pattern on the final
digits of the 48-character encoding. -/
theorem mask_correctness (cli : CliConfig) (owner_raw : List Nat) (repr : List Nat)
    (hlen : repr.length = 36)
    (hvalid : ∀ c ∈ cli.start ++ cli.end_, is_b64_char c = true)
    (hal : cli.start ≠ [] →
      filterChars (cli.start.map (fun c => char_bit_variants c cli.case_sensitive))
        (prefix_bits_of cli) (6 * (build_kernel_config cli owner_raw).2) =
        some (choose_start_alignment cli.start cli.case_sensitive
          (prefix_bits_of cli)).2)
    (hfit : 6 * ((build_kernel_config cli owner_raw).2 + cli.start.length) ≤ 272)
    (hefit : 6 * cli.end_.length ≤ 272)
    (hsep : 6 * ((build_kernel_config cli owner_raw).2 + cli.start.length) ≤
      288 - 6 * cli.end_.length)
    (hflags0 : repr.getD 0 0 = (build_kernel_config cli owner_raw).1.flags_hi)
    (hflags1 : repr.getD 1 0 = (build_kernel_config cli owner_raw).1.flags_lo)
    (hfree : repr.getD 2 0 &&& (build_kernel_config cli owner_raw).1.free_hash_mask =
      (build_kernel_config cli owner_raw).1.free_hash_val)
    (hmask : ∀ i < 36,
      repr.getD i 0 &&& (build_kernel_config cli owner_raw).1.prefix_mask.getD i 0 =
        (build_kernel_config cli owner_raw).1.prefix_val.getD i 0) :
    (∀ ci < cli.start.length,
      6 * ((build_kernel_config cli owner_raw).2 + ci) ∉
        (build_kernel_config cli owner_raw).1.ci_bitpos →
      (b64encode repr).getD ((build_kernel_config cli owner_raw).2 + ci) 0 ∈
        char_variants (cli.start.getD ci 0) cli.case_sensitive) ∧
    (∀ ci < cli.end_.length,
      (288 - 6 * cli.end_.length) + 6 * ci ∉
        (build_kernel_config cli owner_raw).1.ci_bitpos →
      (b64encode repr).getD (48 - cli.end_.length + ci) 0 ∈
        char_variants (cli.end_.getD ci 0) cli.case_sensitive) := by
  obtain ⟨hpm, hpv, hfm, hfv, hcib, hfh, hfl, h2⟩ :=
    build_kernel_config_masks cli owner_raw
  rw [hfh] at hflags0
  rw [hfl] at hflags1
  rw [hfm, hfv] at hfree
  rw [hpm, hpv] at hmask
  rw [h2] at hal hfit hsep
  rw [hcib, h2]
  constructor
  · intro ci hci hnc
    have hstart : cli.start ≠ [] := by
      intro h; rw [h] at hci; simp at hci
    have hsnd := build_masks_snd cli hstart
    have hfst := build_masks_fst cli hstart
    refine start_digit_core cli.case_sensitive (prefix_bits_of cli) cli.start
      cli.end_ (build_masks cli).2
      (choose_start_alignment cli.start cli.case_sensitive (prefix_bits_of cli)).2
      (build_masks cli).1 repr hlen
      (fun c hc => hvalid c (List.mem_append_left _ hc))
      (hal hstart) hfit hsep ?_ ?_ hfree hmask ci hci hnc
    · rw [hfst, hsnd]
    · intro q hq
      exact addr_bit_flags repr cli q hq hflags0 hflags1
  · intro ci hci hnc
    have hend : cli.end_ ≠ [] := by
      intro h; rw [h] at hci; simp at hci
    refine end_digit_core cli.case_sensitive cli.end_
      (if cli.start ≠ [] then
        (List.range (6 * cli.start.length)).foldl
          (startStep cli.case_sensitive
            (choose_start_alignment cli.start cli.case_sensitive
              (prefix_bits_of cli)).2
            ((choose_start_alignment cli.start cli.case_sensitive
              (prefix_bits_of cli)).1 * 6)) maskSt0
      else maskSt0)
      (build_masks cli).1 repr hlen
      (fun c hc => hvalid c (List.mem_append_right _ hc))
      hefit ?_ ?_ ?_ ?_ hmask ci hci hnc
    · by_cases hs : cli.start ≠ []
      · rw [build_masks_fst cli hs, if_pos hend, if_pos hs]
      · rw [build_masks_fst_nostart cli (not_not.mp hs), if_pos hend, if_neg hs]
    · split_ifs with hs
      · exact ((startFold_lengths _ _ _ _ _).1).trans (by simp [maskSt0])
      · simp [maskSt0]
    · split_ifs with hs
      · exact ((startFold_lengths _ _ _ _ _).2).trans (by simp [maskSt0])
      · simp [maskSt0]
    · intro q hq
      split_ifs with hs
      · have hsnd := build_masks_snd cli hs
        refine (startFold_prefix_frame _ _ _ q _ maskSt0 ?_).2.trans
          (mget_replicate_zero 36 q)
        intro i hi
        have hii := List.mem_range.mp hi
        rw [← hsnd]
        omega
      · exact mget_replicate_zero 36 q

/-- C1 counterexample to the unamended claim: for the `kQBE` configuration the
all-byte mask equations hold of `reprBad` (flag bytes and free-byte bits are
not covered by `prefix_mask`), its first pattern digit is not excluded by a
case-insensitive ambiguity entry, and yet the encoded address does not carry
the pattern character there. -/
theorem mask_bytes_alone_insufficient :
    (∀ i < 36,
      reprBad.getD i 0 &&& (build_kernel_config cli7 owner7).1.prefix_mask.getD i 0 =
        (build_kernel_config cli7 owner7).1.prefix_val.getD i 0) ∧
    reprBad.length = 36 ∧
    0 < cli7.start.length ∧
    6 * ((build_kernel_config cli7 owner7).2 + 0) ∉
      (build_kernel_config cli7 owner7).1.ci_bitpos ∧
    (b64encode reprBad).getD ((build_kernel_config cli7 owner7).2 + 0) 0 ∉
      char_variants (cli7.start.getD 0 0) cli7.case_sensitive := by
  refine ⟨by decide, by decide, by decide, by decide, by decide⟩

theorem mask_correctness_witness :
    (∀ ci < cli7.start.length,
      6 * ((build_kernel_config cli7 owner7).2 + ci) ∉
        (build_kernel_config cli7 owner7).1.ci_bitpos →
      (b64encode reprW).getD ((build_kernel_config cli7 owner7).2 + ci) 0 ∈
        char_variants (cli7.start.getD ci 0) cli7.case_sensitive) ∧
    (∀ ci < cli7.end_.length,
      (288 - 6 * cli7.end_.length) + 6 * ci ∉
        (build_kernel_config cli7 owner7).1.ci_bitpos →
      (b64encode reprW).getD (48 - cli7.end_.length + ci) 0 ∈
        char_variants (cli7.end_.getD ci 0) cli7.case_sensitive) :=
  mask_correctness cli7 owner7 reprW (by decide) (by decide)
    (fun _ => by decide) (by decide) (by decide) (by decide) (by decide)
    (by decide) (by decide) (by decide)
